import Mathlib

/-!
Verification of the keyword/term splitter (`KeywordProcessor`) from
"Simple Input Processing.ipynb".

The source builds a single regular expression from the configuration

  pattern = '[\s%s]*' % seps ++ '(' ++
            ('[%s]%s' % (markers, '?' if None in groups else '') if groups else '') ++
            ''.join('%s[^%s]+%s|' % (q,q,q) for q in quotes) ++
            '[^%s]+' % seps ++ ')' ++ '[%s]*' % seps

and tokenizes with `regex.findall`, then normalizes, sorts and buckets the
matches.  The embedding below implements exactly the matching semantics of
that pattern family (leftmost scanning, a greedy `[\s...]*` lead that
backtracks until the parenthesised group can match, ordered alternation
where the optional marker class attaches to the first quote alternative
only, and a trailing separator run), specialized to the pattern shape the
source constructs.  Machine strings are `List Char`; Python's `\s` is
modelled by the six ASCII whitespace characters (inputs are taken to be
ASCII; Unicode-only whitespace is outside the model).

Configurations whose characters are regular-expression metacharacters would
make the constructed pattern parse as a different expression (the source
performs no escaping); the well-formedness predicate `wfB` below restricts
the semantic theorems to configurations whose characters are literal inside
the constructed pattern.
-/

abbrev Str := List Char

/-- The characters matched by Python's `\s` on ASCII text. -/
def wsChars : List Char := [' ', '\t', '\n', Char.ofNat 11, Char.ofNat 12, '\r']

/-- Shape selector derived from the source's `group` argument:
`group=True` or `group=dict` return the bucket mapping, `group=False` or
`group=None` return flat `(marker, term)` pairs, and a container type such
as `list`/`tuple` returns one sequence per configured marker. -/
inductive GroupMode where
  | mapping : GroupMode
  | pairs : GroupMode
  | container : GroupMode
deriving DecidableEq

/-- The configuration state stored by `KeywordProcessor.__init__`.
`groups` elements are `none` (the Python `None` sentinel) or `some c` for a
marker character; `normalize` is the optional normalization function; the
`result` container (`list`/`tuple`) is modelled as the identity on
sequences (`set` results, whose iteration order is implementation defined,
are outside the model). -/
structure KeywordProcessor where
  separators : List Char
  quotes : List Char
  groups : List (Option Char)
  groupMode : GroupMode
  normalize : Option (Str → Str)
  sort : Bool

/-- The marker characters of a groups list: `[i for i in groups if i is not None]`. -/
def markerCharsOf (gs : List (Option Char)) : List Char := gs.filterMap id

def KeywordProcessor.markerChars (cfg : KeywordProcessor) : List Char :=
  markerCharsOf cfg.groups

/-- Whether the marker class carries a `?` quantifier: `None in groups`. -/
def KeywordProcessor.markerOptional (cfg : KeywordProcessor) : Bool :=
  none ∈ cfg.groups

def KeywordProcessor.isSep (cfg : KeywordProcessor) (c : Char) : Bool :=
  c ∈ cfg.separators

/-- Membership in the leading character class `[\s%s]` (whitespace or separator). -/
def KeywordProcessor.isSepWS (cfg : KeywordProcessor) (c : Char) : Bool :=
  c ∈ wsChars || c ∈ cfg.separators

/-- Matching of one quoted alternative `q[^q]+q` at the head of the input:
an opening `q`, a nonempty greedy run `[^q]+` of characters other than `q`,
and a closing `q`.  Returns the matched text and the remainder. -/
def tryQuoted (q : Char) (cs : List Char) : Option (Str × List Char) :=
  match cs with
  | [] => none
  | c :: t =>
    let mid := t.takeWhile (fun d => d != q)
    let rest := t.dropWhile (fun d => d != q)
    if c = q ∧ mid ≠ [] ∧ rest ≠ [] then some (q :: (mid ++ [q]), rest.tail)
    else none

/-- Matching of the bare alternative `[^%s]+` (a maximal nonempty run of
non-separator characters) at the head of the input. -/
def tryBare (cfg : KeywordProcessor) (cs : List Char) : Option (Str × List Char) :=
  let tok := cs.takeWhile (fun d => !cfg.isSep d)
  if tok = [] then none else some (tok, cs.dropWhile (fun d => !cfg.isSep d))

/-- Ordered alternation: the left alternative is preferred, the right one
is tried only if the left fails (the regex `|` at one position). -/
def orOpt (a b : Option (Str × List Char)) : Option (Str × List Char) :=
  match a with
  | some r => some r
  | none => b

/-- Matching of the first alternative when groups and quotes are both
configured: `[G]q1[^q1]+q1` (or `[G]?q1[^q1]+q1` when `None ∈ groups`).
The optional marker is greedy and backtracks: with a marker character at
the head the quoted span is first tried after it, and on failure (only if
the marker is optional) retried at the head itself. -/
def tryMarkerQuoted (cfg : KeywordProcessor) (q1 : Char) (cs : List Char) :
    Option (Str × List Char) :=
  match cs with
  | [] => none
  | c :: t =>
    if c ∈ cfg.markerChars then
      orOpt ((tryQuoted q1 t).map (fun pr => (c :: pr.1, pr.2)))
        (if cfg.markerOptional then tryQuoted q1 cs else none)
    else if cfg.markerOptional then tryQuoted q1 cs else none

/-- Matching of the single alternative `[G](?)[^%s]+` produced when groups
are configured but quoting is disabled. -/
def tryMarkerBare (cfg : KeywordProcessor) (cs : List Char) :
    Option (Str × List Char) :=
  match cs with
  | [] => none
  | c :: t =>
    if c ∈ cfg.markerChars then
      orOpt ((tryBare cfg t).map (fun pr => (c :: pr.1, pr.2)))
        (if cfg.markerOptional then tryBare cfg cs else none)
    else if cfg.markerOptional then tryBare cfg cs else none

/-- Left-to-right trial of a run of quoted alternatives `q[^q]+q|...`. -/
def tryQuotes (qs : List Char) (cs : List Char) : Option (Str × List Char) :=
  match qs with
  | [] => none
  | q :: qs' => orOpt (tryQuoted q cs) (tryQuotes qs' cs)

/-- One attempt of the parenthesised group at a position: the alternatives
in the source's concatenation order, first match wins.  With groups
configured the marker class is concatenated onto the first quote
alternative only (that is how the source's string concatenation
associates); with quotes disabled and groups configured the group is the
single alternative `[G](?)[^S]+`; the bare run `[^S]+` is always last. -/
def tryGroupAt (cfg : KeywordProcessor) (cs : List Char) : Option (Str × List Char) :=
  match cfg.groups, cfg.quotes with
  | [], qs => orOpt (tryQuotes qs cs) (tryBare cfg cs)
  | _ :: _, q1 :: qs =>
    orOpt (tryMarkerQuoted cfg q1 cs) (orOpt (tryQuotes qs cs) (tryBare cfg cs))
  | _ :: _, [] => tryMarkerBare cfg cs

/-- The greedy lead `[\s%s]*` with backtracking: the group is tried after
the longest lead first (`k` positions skipped), then after ever shorter
leads down to the empty lead. -/
def tryLead (cfg : KeywordProcessor) (s : List Char) : Nat → Option (Str × List Char)
  | 0 => tryGroupAt cfg s
  | k + 1 => orOpt (tryGroupAt cfg (s.drop (k + 1))) (tryLead cfg s k)

/-- One anchored attempt of the whole pattern at the start of `s`: greedy
backtracking lead, then the group, then the trailing `[%s]*` run which
consumes separators after the match. -/
def anchoredMatch (cfg : KeywordProcessor) (s : List Char) : Option (Str × List Char) :=
  (tryLead cfg s (s.takeWhile cfg.isSepWS).length).map
    (fun pr => (pr.1, pr.2.dropWhile cfg.isSep))

/-- Fuelled scanning loop of `regex.findall`: try the pattern anchored at
the current position; on success record the group and continue after the
match, on failure advance one character. -/
def findTokens (cfg : KeywordProcessor) : Nat → List Char → List Str
  | 0, _ => []
  | _ + 1, [] => []
  | fuel + 1, c :: t =>
    match anchoredMatch cfg (c :: t) with
    | some (tok, rest) => tok :: findTokens cfg fuel rest
    | none => findTokens cfg fuel t

/-- `self.regex.findall(value)`: the ordered, non-overlapping raw tokens. -/
def findall (cfg : KeywordProcessor) (s : List Char) : List Str :=
  findTokens cfg s.length s

/-- Lexicographic comparison on code points, Python's `<=` on strings. -/
def strLe : Str → Str → Bool
  | [], _ => true
  | _ :: _, [] => false
  | a :: as, b :: bs =>
    if a.toNat < b.toNat then true
    else if b.toNat < a.toNat then false
    else strLe as bs

/-- Insertion into a sorted list, preserving order of equal elements. -/
def insertS (x : Str) : List Str → List Str
  | [] => [x]
  | y :: ys => if strLe x y then x :: y :: ys else y :: insertS x ys

/-- The effect of Python's `matches.sort()`: ascending lexicographic order
(a stable sort; since equal strings are identical the choice of stable
algorithm is immaterial). -/
def pySort (l : List Str) : List Str := l.foldr insertS []

/-- `if callable(self.normalize): matches = [self.normalize(i) for i in matches]`. -/
def normStage (cfg : KeywordProcessor) (ms : List Str) : List Str :=
  match cfg.normalize with
  | some f => ms.map f
  | none => ms

/-- `if self.sort: matches.sort()`. -/
def sortStage (cfg : KeywordProcessor) (ms : List Str) : List Str :=
  if cfg.sort then pySort ms else ms

/-- The term list produced before grouping: raw tokens, then normalization,
then sorting. -/
def termsOf (cfg : KeywordProcessor) (s : List Char) : List Str :=
  sortStage cfg (normStage cfg (findall cfg s))

/-- Errors the split operation can raise: `TypeError` for non-string input
and `IndexError` from `i[0]` when a term is the empty string. -/
inductive SplitError where
  | typeError : SplitError
  | indexError : SplitError
deriving DecidableEq

/-- One iteration of the bucketing loop:
`if i[0] in self.groups: groups[i[0]].append(i[1:]) else: groups[None].append(i)`.
Evaluating `i[0]` on an empty term raises `IndexError`. -/
def addTok (gs : List (Option Char)) (b : Option Char → List Str) (t : Str) :
    Except SplitError (Option Char → List Str) :=
  match t with
  | [] => .error .indexError
  | c :: rest =>
    if some c ∈ gs then
      .ok (fun k => if k = some c then b k ++ [rest] else b k)
    else
      .ok (fun k => if k = none then b k ++ [t] else b k)

/-- The bucket contents after the grouping loop, as a function from key to
the ordered list of terms appended to that bucket. -/
def bucketsOf (cfg : KeywordProcessor) (ts : List Str) :
    Except SplitError (Option Char → List Str) :=
  ts.foldlM (addTok cfg.groups) (fun _ => [])

/-- Proof-support view of the bucketing loop: the key a nonempty term is
routed to (`some` of its head when the head is a configured marker,
otherwise the `None` bucket). -/
def routesTo (gs : List (Option Char)) (t : Str) : Option Char :=
  match t with
  | [] => none
  | c :: _ => if some c ∈ gs then some c else none

/-- Proof-support view of the bucketing loop: what is stored for a term
(the term with its first character removed when the head is a configured
marker, the whole term otherwise). -/
def storedOf (gs : List (Option Char)) (t : Str) : Str :=
  match t with
  | [] => []
  | c :: rest => if some c ∈ gs then rest else c :: rest

/-- Proof-support view of the bucketing loop: the ordered contents of one
bucket after processing a term list. -/
def bucketList (gs : List (Option Char)) (k : Option Char) (ts : List Str) : List Str :=
  (ts.filter (fun t => routesTo gs t = k)).map (storedOf gs)

/-- Insertion-ordered key set of `dict([(i, list()) for i in self.groups])`. -/
def dictKeys (gs : List (Option Char)) : List (Option Char) :=
  gs.foldl (fun ks k => if k ∈ ks then ks else ks ++ [k]) []

/-- The keys of the returned mapping: the deduplicated groups in declared
order, with `None` appended when absent
(`if None not in groups.keys(): groups[None] = list()`). -/
def mappingKeys (cfg : KeywordProcessor) : List (Option Char) :=
  let ks := dictKeys cfg.groups
  if none ∈ ks then ks else ks ++ [none]

/-- The mapping returned when `self.group is dict`. -/
def mappingFromBuckets (cfg : KeywordProcessor) (b : Option Char → List Str) :
    List (Option Char × List Str) :=
  (mappingKeys cfg).map (fun k => (k, b k))

/-- The flat pair list returned when `self.group is False or None`:
`for group in self.groups: results.extend((group, match) for match in groups[group])`. -/
def pairsFromBuckets (cfg : KeywordProcessor) (b : Option Char → List Str) :
    List (Option Char × Str) :=
  (cfg.groups.map (fun g => (b g).map (fun t => (g, t)))).flatten

/-- The container of per-marker sequences returned otherwise:
`self.group([[match for match in groups[group]] for group in self.groups])`. -/
def seqsFromBuckets (cfg : KeywordProcessor) (b : Option Char → List Str) :
    List (List Str) :=
  cfg.groups.map b

/-- The possible result shapes of `split`. -/
inductive SplitResult where
  | flat : List Str → SplitResult
  | mapping : List (Option Char × List Str) → SplitResult
  | pairs : List (Option Char × Str) → SplitResult
  | seqs : List (List Str) → SplitResult
deriving DecidableEq

/-- `KeywordProcessor.split` on a string argument: tokenize, normalize,
sort; with no groups return the flat term list, otherwise bucket and
dispatch on the grouping mode. -/
def splitStr (cfg : KeywordProcessor) (s : List Char) : Except SplitError SplitResult :=
  let ms := termsOf cfg s
  match cfg.groups with
  | [] => .ok (.flat ms)
  | _ :: _ =>
    match bucketsOf cfg ms with
    | .error e => .error e
    | .ok b =>
      match cfg.groupMode with
      | .mapping => .ok (.mapping (mappingFromBuckets cfg b))
      | .pairs => .ok (.pairs (pairsFromBuckets cfg b))
      | .container => .ok (.seqs (seqsFromBuckets cfg b))

/-- Representative Python values for the `split` argument; only `pstr` is
a string. -/
inductive PyValue where
  | pstr : Str → PyValue
  | pint : Int → PyValue
  | pbool : Bool → PyValue
  | pnone : PyValue
deriving DecidableEq

/-- `KeywordProcessor.split`: the guard
`if not isinstance(value, str): raise TypeError(...)` runs before any
tokenization. -/
def split (cfg : KeywordProcessor) (v : PyValue) : Except SplitError SplitResult :=
  match v with
  | .pstr s => splitStr cfg s
  | _ => .error .typeError

/-- The pattern text constructed by `__init__`, character for character:
`[\s SEPS ]* (  [MARKERS](?)  q[^q]+q| ...  [^ SEPS ]+  ) [ SEPS ]*`. -/
def buildPattern (seps quotes : List Char) (gs : List (Option Char)) : List Char :=
  '[' :: '\\' :: 's' :: (seps ++ [']', '*'])
  ++ ['(']
  ++ (match gs with
      | [] => []
      | _ :: _ =>
        '[' :: (markerCharsOf gs ++ [']'])
        ++ (if none ∈ gs then ['?'] else []))
  ++ (quotes.map (fun q => [q, '[', '^', q, ']', '+', q, '|'])).flatten
  ++ ('[' :: '^' :: (seps ++ [']', '+']))
  ++ [')']
  ++ ('[' :: (seps ++ [']', '*']))

/-- Scanner state for `patScan`: top level, just after `[`, just after
`[^`, or inside a character class body. -/
inductive ScanMode where
  | top : ScanMode
  | classStart : ScanMode
  | classFirst : ScanMode
  | inClass : ScanMode
deriving DecidableEq

/-- Model of `re.compile`'s acceptance of a pattern, for the pattern shapes
this source constructs: parentheses must balance and every character class
must be terminated, where following Python's rules a `]` directly after `[`
or `[^` is a literal member of the class and a backslash escapes the next
character.  Quantifier placement, range validity and escape validity are
not modelled; within the literal-character configurations admitted by the
well-formedness predicate they cannot fail. -/
def patScan : List Char → Nat → ScanMode → Bool
  | [], d, m =>
    match m with
    | .top => d = 0
    | _ => false
  | c :: r, d, m =>
    match m with
    | .top =>
      if c = '(' then patScan r (d + 1) .top
      else if c = ')' then
        match d with
        | 0 => false
        | d' + 1 => patScan r d' .top
      else if c = '[' then patScan r d .classStart
      else if c = '\\' then
        match r with
        | [] => false
        | _ :: r' => patScan r' d .top
      else patScan r d .top
    | .classStart =>
      if c = '^' then patScan r d .classFirst
      else if c = ']' then patScan r d .inClass
      else if c = '\\' then
        match r with
        | [] => false
        | _ :: r' => patScan r' d .inClass
      else patScan r d .inClass
    | .classFirst =>
      if c = ']' then patScan r d .inClass
      else if c = '\\' then
        match r with
        | [] => false
        | _ :: r' => patScan r' d .inClass
      else patScan r d .inClass
    | .inClass =>
      if c = ']' then patScan r d .top
      else if c = '\\' then
        match r with
        | [] => false
        | _ :: r' => patScan r' d .inClass
      else patScan r d .inClass

def patternOk (p : List Char) : Bool := patScan p 0 .top

inductive BuildError where
  | configurationError : BuildError
deriving DecidableEq

/-- `KeywordProcessor.__init__`: the configuration is stored and the
pattern is compiled once; a pattern rejected by `re.compile` raises at
build time (the spec's `ConfigurationError`). -/
def mkProcessor (separators quotes : List Char) (gs : List (Option Char))
    (mode : GroupMode) (normalize : Option (Str → Str)) (sort : Bool) :
    Except BuildError KeywordProcessor :=
  if patternOk (buildPattern separators quotes gs) then
    .ok ⟨separators, quotes, gs, mode, normalize, sort⟩
  else
    .error .configurationError

/-- Characters that stand for themselves inside a character class of the
constructed pattern (conservatively excluding the class metacharacters). -/
def classLit (c : Char) : Bool := ¬ (c ∈ ['\\', ']', '[', '^', '-'])

/-- Characters that stand for themselves outside character classes. -/
def atomLit (c : Char) : Bool :=
  ¬ (c ∈ ['\\', '.', '^', '$', '*', '+', '?', '{', '}', '[', ']', '|', '(', ')'])

/-- The marker character list parses as the intended class `[...]`: every
character literal, except that a final `-` is allowed (a dash in last
position of a class is literal). -/
def markersOkB (ms : List Char) : Bool :=
  ms.dropLast.all classLit &&
  (match ms.getLast? with
   | none => true
   | some c => classLit c || c = '-')

/-- Well-formed configurations: the domain on which the embedding is
faithful to the compiled regular expression.  Separators are nonempty (see
`mkProcessor` otherwise) and all configured characters are literal in
their position in the pattern; quote and marker characters are not
whitespace, not separators, and quotes are not markers, so that the lead
class, the trailing class and the alternatives interact as intended. -/
def wfB (cfg : KeywordProcessor) : Bool :=
  ¬ cfg.separators.isEmpty
  && cfg.separators.all classLit
  && cfg.quotes.all (fun q =>
       classLit q && atomLit q && ¬ (q ∈ wsChars) && ¬ (q ∈ cfg.separators)
       && ¬ (q ∈ cfg.markerChars))
  && markersOkB cfg.markerChars
  && cfg.markerChars.all (fun m => ¬ (m ∈ wsChars) && ¬ (m ∈ cfg.separators))
  && (cfg.groups.isEmpty || ¬ cfg.markerChars.isEmpty)

/-- Reference procedure, modelled from the spec's words for the refinement
claim: "break the input on runs of separator characters".  Fold from the
right, starting a new piece at each separator. -/
def rawPieces (cfg : KeywordProcessor) (s : List Char) : List Str :=
  s.foldr
    (fun c acc =>
      if cfg.isSep c then [] :: acc
      else
        match acc with
        | [] => [[c]]
        | p :: ps => (c :: p) :: ps)
    [[]]

/-- Reference procedure, continued: "discard empty pieces". -/
def refPieces (cfg : KeywordProcessor) (s : List Char) : List Str :=
  (rawPieces cfg s).filter (fun p => ¬ p.isEmpty)

/-- Proof-support view of `rawPieces` on a suffix that starts at a piece
boundary: the pieces contributed by the suffix after its leading piece was
already closed. -/
def tailPieces (cfg : KeywordProcessor) (s : List Char) : List Str :=
  match s with
  | [] => []
  | _ :: _ => (rawPieces cfg s).tail

/-- Reference procedure, completed: "apply the configured normalization and
sort" to the pieces. -/
def refTerms (cfg : KeywordProcessor) (s : List Char) : List Str :=
  sortStage cfg (normStage cfg (refPieces cfg s))

/-- Joining a term list with a single separator character. -/
def joinWith (g : Char) : List Str → Str
  | [] => []
  | [t] => t
  | t :: t' :: ts => t ++ g :: joinWith g (t' :: ts)

/-- Joining with the canonical join character, "the first separator". -/
def joinCanon (cfg : KeywordProcessor) (ts : List Str) : Str :=
  joinWith (cfg.separators.headD ' ') ts

/-! ### Concrete configurations from the notebook, used in examples -/

/-- The notebook's search parser: separators `" \t"`, the default quotes,
`groups=[None, '+', '-']`, `group=tuple` (container-of-sequences mode). -/
def searchCfg : KeywordProcessor :=
  ⟨[' ', '\t'], ['"', Char.ofNat 39], [none, some '+', some '-'], .container,
    none, false⟩

/-- `searchCfg` with the grouping mode switched to `group=dict` (mapping). -/
def searchMapCfg : KeywordProcessor :=
  ⟨[' ', '\t'], ['"', Char.ofNat 39], [none, some '+', some '-'], .mapping,
    none, false⟩

/-- The default configuration: separators `" \t"`, the default quotes,
no groups, no normalization, no sorting. -/
def plainCfg : KeywordProcessor :=
  ⟨[' ', '\t'], ['"', Char.ofNat 39], [], .pairs, none, false⟩

/-- A configuration whose only separator is the space character, so that
other whitespace is not a separator. -/
def spaceCfg : KeywordProcessor :=
  ⟨[' '], ['"', Char.ofNat 39], [], .pairs, none, false⟩

/-- `spaceCfg` with `sort=True`. -/
def spaceSortCfg : KeywordProcessor :=
  ⟨[' '], ['"', Char.ofNat 39], [], .pairs, none, true⟩

/-- A grouped configuration without the `None` sentinel in `groups`. -/
def strictCfg : KeywordProcessor :=
  ⟨[' ', '\t'], ['"', Char.ofNat 39], [some '+'], .pairs, none, false⟩

/-- `strictCfg` in mapping mode. -/
def strictMapCfg : KeywordProcessor :=
  ⟨[' ', '\t'], ['"', Char.ofNat 39], [some '+'], .mapping, none, false⟩

/-- `strictCfg` in container-of-sequences mode. -/
def strictSeqCfg : KeywordProcessor :=
  ⟨[' ', '\t'], ['"', Char.ofNat 39], [some '+'], .container, none, false⟩

/-- A grouped mapping-mode configuration whose normalization drops the
first character of every token. -/
def normCfg : KeywordProcessor :=
  ⟨[' ', '\t'], ['"', Char.ofNat 39], [none, some '+'], .mapping,
    some (fun t => t.drop 1), false⟩

/-! ### Basic length facts about the matchers -/

theorem dropWhile_length_le (p : Char → Bool) (l : List Char) :
    (l.dropWhile p).length ≤ l.length := by
  induction l with
  | nil => simp
  | cons c t ih =>
    by_cases h : p c
    · rw [List.dropWhile_cons_of_pos h]; exact Nat.le_succ_of_le ih
    · rw [List.dropWhile_cons_of_neg h]

theorem orOpt_eq_some {a b : Option (Str × List Char)} {v : Str × List Char} :
    orOpt a b = some v ↔ a = some v ∨ (a = none ∧ b = some v) := by
  cases a <;> simp [orOpt]

theorem orOpt_eq_none {a b : Option (Str × List Char)} :
    orOpt a b = none ↔ a = none ∧ b = none := by
  cases a <;> simp [orOpt]

theorem tryQuoted_consume {q : Char} {cs : List Char} {v : Str × List Char}
    (h : tryQuoted q cs = some v) : v.2.length < cs.length := by
  match cs with
  | [] => simp [tryQuoted] at h
  | c :: t =>
    simp only [tryQuoted] at h
    split at h
    · rename_i hcond
      obtain ⟨-, -, hrest⟩ := hcond
      injection h with h'
      subst h'
      have h3 : (t.dropWhile (fun d => d != q)).tail.length <
          (t.dropWhile (fun d => d != q)).length := by
        match hdw : t.dropWhile (fun d => d != q) with
        | [] => exact absurd hdw hrest
        | x :: xs => simp
      calc (q :: (t.takeWhile (fun d => d != q) ++ [q]),
              (t.dropWhile (fun d => d != q)).tail).2.length
          < (t.dropWhile (fun d => d != q)).length := h3
        _ ≤ t.length := dropWhile_length_le _ _
        _ < (c :: t).length := by simp
    · exact absurd h (by simp)

theorem tryBare_consume {cfg : KeywordProcessor} {cs : List Char}
    {v : Str × List Char} (h : tryBare cfg cs = some v) : v.2.length < cs.length := by
  simp only [tryBare] at h
  split at h
  · exact absurd h (by simp)
  · rename_i hne
    injection h with h'
    subst h'
    match cs with
    | [] => simp [List.takeWhile] at hne
    | c :: t =>
      show (List.dropWhile (fun d => !cfg.isSep d) (c :: t)).length < (c :: t).length
      rw [List.dropWhile_cons]
      by_cases hp : (!cfg.isSep c) = true
      · rw [if_pos hp]
        exact Nat.lt_succ_of_le (dropWhile_length_le _ _)
      · rw [List.takeWhile_cons, if_neg hp] at hne
        exact absurd rfl hne

theorem tryMarkerQuoted_consume {cfg : KeywordProcessor} {q1 : Char}
    {cs : List Char} {v : Str × List Char}
    (h : tryMarkerQuoted cfg q1 cs = some v) : v.2.length < cs.length := by
  match cs with
  | [] => simp [tryMarkerQuoted] at h
  | c :: t =>
    simp only [tryMarkerQuoted] at h
    have hopt : (if cfg.markerOptional = true then tryQuoted q1 (c :: t) else none)
        = some v → v.2.length < (c :: t).length := by
      intro hh
      split at hh
      · exact tryQuoted_consume hh
      · exact absurd hh (by simp)
    split at h
    · rcases orOpt_eq_some.mp h with h1 | ⟨-, h2⟩
      · rcases Option.map_eq_some'.mp h1 with ⟨pr, hpr, hmap⟩
        obtain ⟨tok0, r0⟩ := pr
        subst hmap
        exact Nat.lt_succ_of_lt (@tryQuoted_consume q1 t (tok0, r0) hpr)
      · exact hopt h2
    · exact hopt h

theorem tryMarkerBare_consume {cfg : KeywordProcessor} {cs : List Char}
    {v : Str × List Char} (h : tryMarkerBare cfg cs = some v) :
    v.2.length < cs.length := by
  match cs with
  | [] => simp [tryMarkerBare] at h
  | c :: t =>
    simp only [tryMarkerBare] at h
    have hopt : (if cfg.markerOptional = true then tryBare cfg (c :: t) else none)
        = some v → v.2.length < (c :: t).length := by
      intro hh
      split at hh
      · exact tryBare_consume hh
      · exact absurd hh (by simp)
    split at h
    · rcases orOpt_eq_some.mp h with h1 | ⟨-, h2⟩
      · rcases Option.map_eq_some'.mp h1 with ⟨pr, hpr, hmap⟩
        obtain ⟨tok0, r0⟩ := pr
        subst hmap
        exact Nat.lt_succ_of_lt (@tryBare_consume cfg t (tok0, r0) hpr)
      · exact hopt h2
    · exact hopt h

theorem tryQuotes_consume {qs cs : List Char} {v : Str × List Char}
    (h : tryQuotes qs cs = some v) : v.2.length < cs.length := by
  induction qs with
  | nil => simp [tryQuotes] at h
  | cons q qs ih =>
    simp only [tryQuotes] at h
    rcases orOpt_eq_some.mp h with h1 | ⟨-, h2⟩
    · exact tryQuoted_consume h1
    · exact ih h2

theorem tryGroupAt_consume {cfg : KeywordProcessor} {cs : List Char}
    {v : Str × List Char} (h : tryGroupAt cfg cs = some v) : v.2.length < cs.length := by
  unfold tryGroupAt at h
  split at h
  · rcases orOpt_eq_some.mp h with h1 | ⟨-, h2⟩
    · exact tryQuotes_consume h1
    · exact tryBare_consume h2
  · rcases orOpt_eq_some.mp h with h1 | ⟨-, h2⟩
    · exact tryMarkerQuoted_consume h1
    · rcases orOpt_eq_some.mp h2 with h3 | ⟨-, h4⟩
      · exact tryQuotes_consume h3
      · exact tryBare_consume h4
  · exact tryMarkerBare_consume h

theorem tryLead_consume {cfg : KeywordProcessor} {s : List Char} {k : Nat}
    {v : Str × List Char} (h : tryLead cfg s k = some v) : v.2.length < s.length := by
  induction k with
  | zero => exact tryGroupAt_consume h
  | succ k ih =>
    simp only [tryLead] at h
    rcases orOpt_eq_some.mp h with h1 | ⟨-, h2⟩
    · calc v.2.length < (s.drop (k + 1)).length := tryGroupAt_consume h1
        _ ≤ s.length := by simp
    · exact ih h2

theorem anchoredMatch_consume {cfg : KeywordProcessor} {s : List Char}
    {v : Str × List Char} (h : anchoredMatch cfg s = some v) : v.2.length < s.length := by
  unfold anchoredMatch at h
  rcases Option.map_eq_some'.mp h with ⟨pr, hpr, hmap⟩
  subst hmap
  calc (pr.2.dropWhile cfg.isSep).length ≤ pr.2.length := dropWhile_length_le _ _
    _ < s.length := tryLead_consume hpr

/-! ### Interface of the scanning loop -/

theorem findTokens_nil (cfg : KeywordProcessor) (f : Nat) :
    findTokens cfg f [] = [] := by
  cases f <;> rfl

theorem findTokens_congr (cfg : KeywordProcessor) :
    ∀ (f1 f2 : Nat) (s : List Char), s.length ≤ f1 → s.length ≤ f2 →
      findTokens cfg f1 s = findTokens cfg f2 s := by
  intro f1
  induction f1 with
  | zero =>
    intro f2 s h1 _
    have hs : s = [] := List.eq_nil_of_length_eq_zero (Nat.le_zero.mp h1)
    subst hs
    rw [findTokens_nil, findTokens_nil]
  | succ f ih =>
    intro f2 s h1 h2
    match s with
    | [] => rw [findTokens_nil, findTokens_nil]
    | c :: t =>
      match f2 with
      | 0 => exact absurd h2 (by simp)
      | f2 + 1 =>
        simp only [List.length_cons] at h1 h2
        match ham : anchoredMatch cfg (c :: t) with
        | some (tok, rest) =>
          have hlen : rest.length < t.length + 1 := by
            simpa using anchoredMatch_consume ham
          show (match anchoredMatch cfg (c :: t) with
            | some (tok, rest) => tok :: findTokens cfg f rest
            | none => findTokens cfg f t) =
            (match anchoredMatch cfg (c :: t) with
            | some (tok, rest) => tok :: findTokens cfg f2 rest
            | none => findTokens cfg f2 t)
          rw [ham]
          show tok :: findTokens cfg f rest = tok :: findTokens cfg f2 rest
          rw [ih f2 rest (Nat.le_of_lt_succ (Nat.lt_of_lt_of_le hlen h1))
            (Nat.le_of_lt_succ (Nat.lt_of_lt_of_le hlen h2))]
        | none =>
          show (match anchoredMatch cfg (c :: t) with
            | some (tok, rest) => tok :: findTokens cfg f rest
            | none => findTokens cfg f t) =
            (match anchoredMatch cfg (c :: t) with
            | some (tok, rest) => tok :: findTokens cfg f2 rest
            | none => findTokens cfg f2 t)
          rw [ham]
          show findTokens cfg f t = findTokens cfg f2 t
          exact ih f2 t (Nat.le_of_succ_le_succ h1) (Nat.le_of_succ_le_succ h2)

theorem findall_nil (cfg : KeywordProcessor) : findall cfg [] = [] := rfl

theorem findall_cons_some {cfg : KeywordProcessor} {c : Char} {t : List Char}
    {tok : Str} {rest : List Char} (h : anchoredMatch cfg (c :: t) = some (tok, rest)) :
    findall cfg (c :: t) = tok :: findall cfg rest := by
  have hlen : rest.length < t.length + 1 := by simpa using anchoredMatch_consume h
  unfold findall
  simp only [List.length_cons]
  show (match anchoredMatch cfg (c :: t) with
    | some (tok, rest) => tok :: findTokens cfg t.length rest
    | none => findTokens cfg t.length t) = tok :: findTokens cfg rest.length rest
  rw [h]
  show tok :: findTokens cfg t.length rest = tok :: findTokens cfg rest.length rest
  rw [findTokens_congr cfg t.length rest.length rest (Nat.le_of_lt_succ hlen) le_rfl]

theorem findall_cons_none {cfg : KeywordProcessor} {c : Char} {t : List Char}
    (h : anchoredMatch cfg (c :: t) = none) : findall cfg (c :: t) = findall cfg t := by
  unfold findall
  simp only [List.length_cons]
  show (match anchoredMatch cfg (c :: t) with
    | some (tok, rest) => tok :: findTokens cfg t.length rest
    | none => findTokens cfg t.length t) = findTokens cfg t.length t
  rw [h]

/-! ### Failure of the group at separators, and the skip lemma -/

theorem orOpt_none_right (a : Option (Str × List Char)) : orOpt a none = a := by
  cases a <;> rfl

theorem orOpt_assoc (a b c : Option (Str × List Char)) :
    orOpt (orOpt a b) c = orOpt a (orOpt b c) := by
  cases a <;> rfl

theorem tryQuoted_nil (q : Char) : tryQuoted q [] = none := rfl

theorem tryQuoted_ne_head {q c : Char} (t : List Char) (h : c ≠ q) :
    tryQuoted q (c :: t) = none := by
  simp only [tryQuoted]
  rw [if_neg]
  intro hc
  exact h hc.1

theorem tryQuotes_nil_right (qs : List Char) : tryQuotes qs [] = none := by
  induction qs with
  | nil => rfl
  | cons q qs ih => simp only [tryQuotes, tryQuoted_nil, ih]; rfl

theorem tryQuotes_ne_head {c : Char} {qs : List Char} (t : List Char)
    (h : ∀ q ∈ qs, c ≠ q) : tryQuotes qs (c :: t) = none := by
  induction qs with
  | nil => rfl
  | cons q qs ih =>
    simp only [tryQuotes]
    rw [tryQuoted_ne_head t (h q (by simp)), ih (fun q' hq' => h q' (by simp [hq']))]
    rfl

theorem tryBare_nil (cfg : KeywordProcessor) : tryBare cfg [] = none := rfl

theorem tryBare_sep_head {cfg : KeywordProcessor} {c : Char} (t : List Char)
    (h : cfg.isSep c = true) : tryBare cfg (c :: t) = none := by
  simp only [tryBare]
  rw [List.takeWhile_cons]
  simp [h]

theorem tryGroupAt_nil (cfg : KeywordProcessor) : tryGroupAt cfg [] = none := by
  unfold tryGroupAt
  split
  · rw [tryQuotes_nil_right, tryBare_nil]; rfl
  · rw [tryQuotes_nil_right, tryBare_nil]; rfl
  · rfl

theorem tryGroupAt_sep_head {cfg : KeywordProcessor} {c : Char} (t : List Char)
    (hs : cfg.isSep c = true)
    (hq : ∀ q ∈ cfg.quotes, c ≠ q)
    (hm : c ∉ cfg.markerChars) :
    tryGroupAt cfg (c :: t) = none := by
  unfold tryGroupAt
  split
  · rename_i hgroups hquotes
    rw [tryQuotes_ne_head t hq, tryBare_sep_head t hs]
    rfl
  · rename_i g gs q1 qs hgroups hquotes
    have hq1 : c ≠ q1 := hq q1 (by rw [hquotes]; simp)
    have hqs : ∀ q ∈ qs, c ≠ q := fun q hq' => hq q (by rw [hquotes]; simp [hq'])
    simp only [tryMarkerQuoted, if_neg hm]
    rw [tryQuotes_ne_head t hqs, tryBare_sep_head t hs]
    by_cases hopt : cfg.markerOptional = true
    · rw [if_pos hopt, tryQuoted_ne_head t hq1]
      rfl
    · rw [if_neg hopt]
      rfl
  · rename_i g gs hgroups hquotes
    simp only [tryMarkerBare, if_neg hm]
    by_cases hopt : cfg.markerOptional = true
    · rw [if_pos hopt, tryBare_sep_head t hs]
    · rw [if_neg hopt]

theorem tryLead_cons_shift (cfg : KeywordProcessor) (c : Char) (t : List Char) :
    ∀ k, tryLead cfg (c :: t) (k + 1) = orOpt (tryLead cfg t k) (tryGroupAt cfg (c :: t)) := by
  intro k
  induction k with
  | zero => rfl
  | succ k ih =>
    show orOpt (tryGroupAt cfg ((c :: t).drop (k + 2))) (tryLead cfg (c :: t) (k + 1)) = _
    rw [ih]
    show orOpt (tryGroupAt cfg (t.drop (k + 1))) (orOpt (tryLead cfg t k) (tryGroupAt cfg (c :: t))) = _
    rw [← orOpt_assoc]
    rfl

theorem anchoredMatch_nil (cfg : KeywordProcessor) : anchoredMatch cfg [] = none := by
  unfold anchoredMatch
  show (tryLead cfg [] (List.length []) ).map _ = none
  simp only [List.length_nil]
  show (tryGroupAt cfg []).map _ = none
  rw [tryGroupAt_nil]
  rfl

theorem anchoredMatch_cons_skip {cfg : KeywordProcessor} {c : Char} {t : List Char}
    (hws : cfg.isSepWS c = true) (hfail : tryGroupAt cfg (c :: t) = none) :
    anchoredMatch cfg (c :: t) = anchoredMatch cfg t := by
  unfold anchoredMatch
  have htw : (c :: t).takeWhile cfg.isSepWS = c :: t.takeWhile cfg.isSepWS := by
    rw [List.takeWhile_cons, if_pos hws]
  rw [htw]
  simp only [List.length_cons]
  rw [tryLead_cons_shift cfg c t, hfail, orOpt_none_right]

theorem findall_cons_eq_of_anchored {cfg : KeywordProcessor} {c : Char} {t : List Char}
    (h : anchoredMatch cfg (c :: t) = anchoredMatch cfg t) :
    findall cfg (c :: t) = findall cfg t := by
  match t with
  | [] =>
    rw [findall_cons_none (h.trans (anchoredMatch_nil cfg)), findall_nil]
  | d :: t' =>
    match ham : anchoredMatch cfg (d :: t') with
    | some (tok, rest) =>
      rw [findall_cons_some (h.trans ham), findall_cons_some ham]
    | none =>
      rw [findall_cons_none (h.trans ham), findall_cons_none ham]

/-! ### Extraction of the well-formedness conjuncts -/

theorem wf_parts {cfg : KeywordProcessor} (h : wfB cfg = true) :
    cfg.separators ≠ [] ∧
    (∀ q ∈ cfg.quotes, q ∉ wsChars ∧ q ∉ cfg.separators ∧ q ∉ cfg.markerChars) ∧
    (∀ m ∈ cfg.markerChars, m ∉ wsChars ∧ m ∉ cfg.separators) ∧
    (cfg.groups = [] ∨ cfg.markerChars ≠ []) := by
  simp only [wfB, Bool.and_eq_true, List.all_eq_true, decide_eq_true_eq,
    Bool.or_eq_true, Bool.not_eq_true', List.isEmpty_iff, List.isEmpty_eq_true] at h
  obtain ⟨⟨⟨⟨⟨h1, h2⟩, h3⟩, h4⟩, h5⟩, h6⟩ := h
  refine ⟨h1, ?_, ?_, h6⟩
  · intro q hq
    obtain ⟨⟨⟨⟨-, -⟩, hw⟩, hs⟩, hm⟩ := h3 q hq
    exact ⟨hw, hs, hm⟩
  · intro m hm
    exact h5 m hm

theorem findall_cons_sep {cfg : KeywordProcessor} {c : Char} {t : List Char}
    (hwf : wfB cfg = true) (hc : c ∈ cfg.separators) :
    findall cfg (c :: t) = findall cfg t := by
  obtain ⟨-, hq, hm, -⟩ := wf_parts hwf
  have hsep : cfg.isSep c = true := by simp [KeywordProcessor.isSep, hc]
  apply findall_cons_eq_of_anchored
  apply anchoredMatch_cons_skip
  · simp [KeywordProcessor.isSepWS, hc]
  · exact tryGroupAt_sep_head t hsep
      (fun q hq' hcq => ((hq q hq').2.1) (hcq ▸ hc))
      (fun hmm => ((hm c hmm).2) hc)

theorem findall_sep_run {cfg : KeywordProcessor} (hwf : wfB cfg = true) :
    ∀ (l s : List Char), (∀ c ∈ l, c ∈ cfg.separators) →
      findall cfg (l ++ s) = findall cfg s := by
  intro l
  induction l with
  | nil => intro s _; rfl
  | cons c l ih =>
    intro s hl
    rw [List.cons_append, findall_cons_sep hwf (hl c (by simp))]
    exact ih s (fun d hd => hl d (by simp [hd]))

theorem findall_dropWhile_sep {cfg : KeywordProcessor} (hwf : wfB cfg = true)
    (s : List Char) : findall cfg (s.dropWhile cfg.isSep) = findall cfg s := by
  conv_rhs => rw [← @List.takeWhile_append_dropWhile _ cfg.isSep s]
  rw [findall_sep_run hwf]
  intro c hc
  have := List.mem_takeWhile_imp hc
  simpa [KeywordProcessor.isSep] using this

/-! ### The successful alternatives at a token head -/

theorem takeWhile_append_stop {p : Char → Bool} {l : List Char} {c : Char}
    (h : ∀ d ∈ l, p d = true) (hc : p c = false) (r : List Char) :
    (l ++ c :: r).takeWhile p = l ∧ (l ++ c :: r).dropWhile p = c :: r := by
  induction l with
  | nil =>
    constructor
    · rw [List.nil_append, List.takeWhile_cons, if_neg (by simp [hc])]
    · rw [List.nil_append, List.dropWhile_cons, if_neg (by simp [hc])]
  | cons d l ih =>
    have hd : p d = true := h d (by simp)
    obtain ⟨ih1, ih2⟩ := ih (fun e he => h e (by simp [he]))
    constructor
    · rw [List.cons_append, List.takeWhile_cons, if_pos hd, ih1]
    · rw [List.cons_append, List.dropWhile_cons, if_pos hd, ih2]

theorem tryQuoted_span {q : Char} {mid rest : List Char} (hmid : mid ≠ [])
    (hmidq : ∀ d ∈ mid, d ≠ q) :
    tryQuoted q (q :: (mid ++ q :: rest)) = some (q :: (mid ++ [q]), rest) := by
  have hall : ∀ d ∈ mid, (d != q) = true := by
    intro d hd
    simpa using hmidq d hd
  have hq : (q != q) = false := by simp
  obtain ⟨htw, hdw⟩ := takeWhile_append_stop hall hq rest
  simp only [tryQuoted, htw, hdw]
  rw [if_pos]
  · rfl
  · exact ⟨by trivial, hmid, by simp⟩

theorem tryGroupAt_nogroups {cfg : KeywordProcessor} (hg : cfg.groups = [])
    (cs : List Char) :
    tryGroupAt cfg cs = orOpt (tryQuotes cfg.quotes cs) (tryBare cfg cs) := by
  unfold tryGroupAt
  rcases hq : cfg.quotes with _ | ⟨q1, qs⟩ <;> rw [hg]

theorem tryGroupAt_groups_quotes {cfg : KeywordProcessor} {g : Option Char}
    {gs : List (Option Char)} {q1 : Char} {qs : List Char}
    (hg : cfg.groups = g :: gs) (hq : cfg.quotes = q1 :: qs) (cs : List Char) :
    tryGroupAt cfg cs =
      orOpt (tryMarkerQuoted cfg q1 cs) (orOpt (tryQuotes qs cs) (tryBare cfg cs)) := by
  unfold tryGroupAt
  rw [hg, hq]

theorem tryGroupAt_groups_noquotes {cfg : KeywordProcessor} {g : Option Char}
    {gs : List (Option Char)} (hg : cfg.groups = g :: gs) (hq : cfg.quotes = [])
    (cs : List Char) : tryGroupAt cfg cs = tryMarkerBare cfg cs := by
  unfold tryGroupAt
  rw [hg, hq]

theorem tryQuotes_head_hit {qs : List Char} {q : Char} {t : List Char}
    {v : Str × List Char} (hmem : q ∈ qs) (hv : tryQuoted q (q :: t) = some v) :
    tryQuotes qs (q :: t) = some v := by
  induction qs with
  | nil => simp at hmem
  | cons q' qs ih =>
    simp only [tryQuotes]
    by_cases hq' : q' = q
    · subst hq'
      rw [hv]
      rfl
    · rw [tryQuoted_ne_head t (fun hc => hq' hc.symm)]
      have hmem' : q ∈ qs := by
        rcases List.mem_cons.mp hmem with h | h
        · exact absurd h.symm hq'
        · exact h
      rw [ih hmem']
      rfl

theorem tryGroupAt_quoted {cfg : KeywordProcessor} {q : Char} {mid rest : List Char}
    (hq : q ∈ cfg.quotes) (hmk : q ∉ cfg.markerChars)
    (hopt : cfg.groups = [] ∨ cfg.markerOptional = true)
    (hmid : mid ≠ []) (hmidq : ∀ d ∈ mid, d ≠ q) :
    tryGroupAt cfg (q :: (mid ++ q :: rest)) = some (q :: (mid ++ [q]), rest) := by
  have hv := @tryQuoted_span q mid rest hmid hmidq
  rcases hgq : cfg.groups with _ | ⟨g, gs⟩
  · rw [tryGroupAt_nogroups hgq, tryQuotes_head_hit hq hv]
    rfl
  · rcases hqq : cfg.quotes with _ | ⟨q1, qs⟩
    · rw [hqq] at hq
      simp at hq
    · rw [tryGroupAt_groups_quotes hgq hqq]
      have hoptb : cfg.markerOptional = true := by
        rcases hopt with h | h
        · rw [hgq] at h; simp at h
        · exact h
      have hmarker : tryMarkerQuoted cfg q1 (q :: (mid ++ q :: rest)) =
          tryQuoted q1 (q :: (mid ++ q :: rest)) := by
        simp only [tryMarkerQuoted, if_neg hmk, if_pos hoptb]
      by_cases hq1 : q1 = q
      · subst hq1
        rw [hmarker, hv]
        rfl
      · rw [hmarker, tryQuoted_ne_head _ (fun hc => hq1 hc.symm)]
        have hmem : q ∈ qs := by
          have h' := hq
          rw [hqq] at h'
          rcases List.mem_cons.mp h' with h | h
          · exact absurd h.symm hq1
          · exact h
        show orOpt none (orOpt (tryQuotes qs _) (tryBare cfg _)) = _
        rw [tryQuotes_head_hit hmem hv]
        rfl

theorem anchoredMatch_head_group {cfg : KeywordProcessor} {c : Char} {t : List Char}
    (hws : cfg.isSepWS c = false) :
    anchoredMatch cfg (c :: t) =
      (tryGroupAt cfg (c :: t)).map (fun pr => (pr.1, pr.2.dropWhile cfg.isSep)) := by
  unfold anchoredMatch
  rw [List.takeWhile_cons, if_neg (by simp [hws])]
  rfl

theorem findall_quoted {cfg : KeywordProcessor} {q : Char} {mid rest : List Char}
    (hwf : wfB cfg = true) (hq : q ∈ cfg.quotes)
    (hopt : cfg.groups = [] ∨ cfg.markerOptional = true)
    (hmid : mid ≠ []) (hmidq : ∀ d ∈ mid, d ≠ q) :
    findall cfg (q :: (mid ++ q :: rest)) = (q :: (mid ++ [q])) :: findall cfg rest := by
  obtain ⟨-, hqp, -, -⟩ := wf_parts hwf
  obtain ⟨hqw, hqs, hqm⟩ := hqp q hq
  have hws : cfg.isSepWS q = false := by
    simp [KeywordProcessor.isSepWS, hqw, hqs]
  have ham : anchoredMatch cfg (q :: (mid ++ q :: rest)) =
      some (q :: (mid ++ [q]), rest.dropWhile cfg.isSep) := by
    rw [anchoredMatch_head_group hws, tryGroupAt_quoted hq hqm hopt hmid hmidq]
    rfl
  rw [findall_cons_some ham, findall_dropWhile_sep hwf]

theorem tryBare_nonsep_head {cfg : KeywordProcessor} {c : Char} (t : List Char)
    (hs : cfg.isSep c = false) :
    tryBare cfg (c :: t) =
      some (c :: t.takeWhile (fun d => !cfg.isSep d), t.dropWhile (fun d => !cfg.isSep d)) := by
  have hp : (!cfg.isSep c) = true := by simp [hs]
  simp [tryBare, List.takeWhile_cons, List.dropWhile_cons, hp]

theorem tryGroupAt_bare {cfg : KeywordProcessor} {c : Char} {t : List Char}
    (hg : cfg.groups = []) (hs : cfg.isSep c = false) (hq : ∀ q ∈ cfg.quotes, c ≠ q) :
    tryGroupAt cfg (c :: t) =
      some (c :: t.takeWhile (fun d => !cfg.isSep d), t.dropWhile (fun d => !cfg.isSep d)) := by
  rw [tryGroupAt_nogroups hg, tryQuotes_ne_head t hq, tryBare_nonsep_head t hs]
  rfl

theorem findall_bare {cfg : KeywordProcessor} {c : Char} {t : List Char}
    (hwf : wfB cfg = true) (hg : cfg.groups = []) (hcw : c ∉ wsChars)
    (hcs : c ∉ cfg.separators) (hq : ∀ q ∈ cfg.quotes, c ≠ q) :
    findall cfg (c :: t) =
      (c :: t.takeWhile (fun d => !cfg.isSep d)) ::
        findall cfg (t.dropWhile (fun d => !cfg.isSep d)) := by
  have hs : cfg.isSep c = false := by simp [KeywordProcessor.isSep, hcs]
  have hws : cfg.isSepWS c = false := by simp [KeywordProcessor.isSepWS, hcw, hcs]
  have ham : anchoredMatch cfg (c :: t) =
      some (c :: t.takeWhile (fun d => !cfg.isSep d),
        (t.dropWhile (fun d => !cfg.isSep d)).dropWhile cfg.isSep) := by
    rw [anchoredMatch_head_group hws, tryGroupAt_bare hg hs hq]
    rfl
  rw [findall_cons_some ham, findall_dropWhile_sep hwf]

/-! ### The reference splitter and its agreement with findall -/

theorem rawPieces_nil (cfg : KeywordProcessor) : rawPieces cfg [] = [[]] := rfl

theorem rawPieces_cons_sep {cfg : KeywordProcessor} {c : Char} (t : List Char)
    (h : cfg.isSep c = true) : rawPieces cfg (c :: t) = [] :: rawPieces cfg t := by
  simp only [rawPieces, List.foldr_cons]
  rw [if_pos h]

theorem rawPieces_cons_nonsep {cfg : KeywordProcessor} {c : Char} (t : List Char)
    (h : cfg.isSep c = false) :
    rawPieces cfg (c :: t) =
      (match rawPieces cfg t with
       | [] => [[c]]
       | p :: ps => (c :: p) :: ps) := by
  simp only [rawPieces, List.foldr_cons]
  rw [if_neg (by simp [h])]

theorem rawPieces_absorb {cfg : KeywordProcessor} :
    ∀ (t : List Char) (c : Char), cfg.isSep c = false →
      rawPieces cfg (c :: t) =
        (c :: t.takeWhile (fun d => !cfg.isSep d)) ::
          tailPieces cfg (t.dropWhile (fun d => !cfg.isSep d)) := by
  intro t
  induction t with
  | nil =>
    intro c hc
    rw [rawPieces_cons_nonsep [] hc]
    rfl
  | cons d t ih =>
    intro c hc
    by_cases hd : cfg.isSep d = true
    · rw [rawPieces_cons_nonsep (d :: t) hc, rawPieces_cons_sep t hd]
      rw [List.takeWhile_cons, if_neg (by simp [hd]), List.dropWhile_cons,
        if_neg (by simp [hd])]
      show ([c] : Str) :: rawPieces cfg t = [c] :: tailPieces cfg (d :: t)
      rw [show tailPieces cfg (d :: t) = (rawPieces cfg (d :: t)).tail from rfl,
        rawPieces_cons_sep t hd]
      rfl
    · have hd' : cfg.isSep d = false := by simpa using hd
      rw [rawPieces_cons_nonsep (d :: t) hc, ih d hd']
      rw [List.takeWhile_cons, if_pos (by simp [hd']), List.dropWhile_cons,
        if_pos (by simp [hd'])]

theorem refPieces_nil (cfg : KeywordProcessor) : refPieces cfg [] = [] := rfl

theorem refPieces_cons_sep {cfg : KeywordProcessor} {c : Char} (t : List Char)
    (h : cfg.isSep c = true) : refPieces cfg (c :: t) = refPieces cfg t := by
  simp [refPieces, rawPieces_cons_sep t h]

theorem refPieces_cons_nonsep {cfg : KeywordProcessor} {c : Char} (t : List Char)
    (hc : cfg.isSep c = false) :
    refPieces cfg (c :: t) =
      (c :: t.takeWhile (fun d => !cfg.isSep d)) ::
        refPieces cfg (t.dropWhile (fun d => !cfg.isSep d)) := by
  rw [refPieces, rawPieces_absorb t c hc, List.filter_cons]
  rw [if_pos (by simp)]
  show _ :: List.filter _ (tailPieces cfg _) = _
  congr 1
  match hdw : t.dropWhile (fun d => !cfg.isSep d) with
  | [] => rfl
  | e :: t'' =>
    have he : cfg.isSep e = true := by
      have h0 := List.head?_dropWhile_not (fun d => !cfg.isSep d) t
      rw [hdw] at h0
      simpa using h0
    show List.filter _ ((rawPieces cfg (e :: t'')).tail) = refPieces cfg (e :: t'')
    rw [rawPieces_cons_sep t'' he, refPieces, rawPieces_cons_sep t'' he, List.filter_cons]
    rw [if_neg (by simp)]
    rfl

theorem findall_eq_refPieces {cfg : KeywordProcessor} (hwf : wfB cfg = true)
    (hg : cfg.groups = []) :
    ∀ (n : Nat) (s : List Char), s.length ≤ n →
      (∀ c ∈ s, c ∈ wsChars → c ∈ cfg.separators) →
      (∀ c ∈ s, c ∉ cfg.quotes) →
      findall cfg s = refPieces cfg s := by
  intro n
  induction n with
  | zero =>
    intro s hl _ _
    have hs : s = [] := List.eq_nil_of_length_eq_zero (Nat.le_zero.mp hl)
    subst hs
    rfl
  | succ n ih =>
    intro s hl hws hq
    match s with
    | [] => rfl
    | c :: t =>
      simp only [List.length_cons] at hl
      by_cases hc : cfg.isSep c = true
      · have hcm : c ∈ cfg.separators := by
          simpa [KeywordProcessor.isSep] using hc
        rw [findall_cons_sep hwf hcm, refPieces_cons_sep t hc]
        exact ih t (Nat.le_of_succ_le_succ hl)
          (fun d hd hdw => hws d (by simp [hd]) hdw)
          (fun d hd => hq d (by simp [hd]))
      · have hc' : cfg.isSep c = false := by simpa using hc
        have hcs : c ∉ cfg.separators := by
          simpa [KeywordProcessor.isSep] using hc'
        have hcw : c ∉ wsChars := fun hw => hcs (hws c (by simp) hw)
        have hcq : ∀ q ∈ cfg.quotes, c ≠ q := by
          intro q hqm hcq
          exact hq c (by simp) (hcq ▸ hqm)
        rw [findall_bare hwf hg hcw hcs hcq, refPieces_cons_nonsep t hc']
        congr 1
        have hsub : (t.dropWhile (fun d => !cfg.isSep d)).Sublist t :=
          List.dropWhile_sublist _
        exact ih (t.dropWhile (fun d => !cfg.isSep d))
          (Nat.le_trans (dropWhile_length_le _ t) (Nat.le_of_succ_le_succ hl))
          (fun d hd hdw => hws d (by simp [hsub.mem hd]) hdw)
          (fun d hd => hq d (by simp [hsub.mem hd]))

/-! ### The unterminated-quote case -/

theorem dropWhile_eq_nil_of_all {p : Char → Bool} :
    ∀ {l : List Char}, (∀ x ∈ l, p x = true) → l.dropWhile p = [] := by
  intro l
  induction l with
  | nil => intro _; rfl
  | cons c t ih =>
    intro h
    rw [List.dropWhile_cons, if_pos (h c (by simp))]
    exact ih (fun x hx => h x (by simp [hx]))

theorem takeWhile_eq_self_of_all {p : Char → Bool} :
    ∀ {l : List Char}, (∀ x ∈ l, p x = true) → l.takeWhile p = l := by
  intro l
  induction l with
  | nil => intro _; rfl
  | cons c t ih =>
    intro h
    rw [List.takeWhile_cons, if_pos (h c (by simp))]
    rw [ih (fun x hx => h x (by simp [hx]))]

theorem tryQuoted_unterminated {q : Char} {rest : List Char} (h : q ∉ rest) :
    tryQuoted q (q :: rest) = none := by
  have hdw : rest.dropWhile (fun d => d != q) = [] := by
    apply dropWhile_eq_nil_of_all
    intro x hx
    simp only [bne_iff_ne, ne_eq]
    intro he
    exact h (he ▸ hx)
  simp only [tryQuoted, hdw]
  rw [if_neg]
  intro hcond
  exact hcond.2.2 rfl

theorem tryQuotes_none {qs cs : List Char}
    (h : ∀ q' ∈ qs, tryQuoted q' cs = none) : tryQuotes qs cs = none := by
  induction qs with
  | nil => rfl
  | cons q qs ih =>
    simp only [tryQuotes]
    rw [h q (by simp), ih (fun q' hq' => h q' (by simp [hq']))]
    rfl

theorem tryGroupAt_unterminated {cfg : KeywordProcessor} {q : Char} {rest : List Char}
    (hq : q ∈ cfg.quotes) (hmk : q ∉ cfg.markerChars)
    (hopt : cfg.groups = [] ∨ cfg.markerOptional = true)
    (hnr : q ∉ rest) (hs : cfg.isSep q = false) :
    tryGroupAt cfg (q :: rest) =
      some (q :: rest.takeWhile (fun d => !cfg.isSep d),
        rest.dropWhile (fun d => !cfg.isSep d)) := by
  have hfails : ∀ q' ∈ cfg.quotes, tryQuoted q' (q :: rest) = none := by
    intro q' hq'
    by_cases he : q' = q
    · subst he
      exact tryQuoted_unterminated hnr
    · exact tryQuoted_ne_head rest (fun hc => he hc.symm)
  rcases hgq : cfg.groups with _ | ⟨g, gs⟩
  · rw [tryGroupAt_nogroups hgq, tryQuotes_none hfails, tryBare_nonsep_head rest hs]
    rfl
  · rcases hqq : cfg.quotes with _ | ⟨q1, qs⟩
    · rw [hqq] at hq
      simp at hq
    · rw [tryGroupAt_groups_quotes hgq hqq]
      have hoptb : cfg.markerOptional = true := by
        rcases hopt with h | h
        · rw [hgq] at h; simp at h
        · exact h
      have hmarker : tryMarkerQuoted cfg q1 (q :: rest) = tryQuoted q1 (q :: rest) := by
        simp only [tryMarkerQuoted, if_neg hmk, if_pos hoptb]
      rw [hmarker, hfails q1 (by rw [hqq]; simp)]
      rw [tryQuotes_none (fun q' hq' => hfails q' (by rw [hqq]; simp [hq']))]
      rw [tryBare_nonsep_head rest hs]
      rfl

theorem findall_unterminated {cfg : KeywordProcessor} {q : Char} {rest : List Char}
    (hwf : wfB cfg = true) (hq : q ∈ cfg.quotes)
    (hopt : cfg.groups = [] ∨ cfg.markerOptional = true) (hnr : q ∉ rest) :
    findall cfg (q :: rest) =
      (q :: rest.takeWhile (fun d => !cfg.isSep d)) ::
        findall cfg (rest.dropWhile (fun d => !cfg.isSep d)) := by
  obtain ⟨-, hqp, -, -⟩ := wf_parts hwf
  obtain ⟨hqw, hqs, hqm⟩ := hqp q hq
  have hs : cfg.isSep q = false := by simp [KeywordProcessor.isSep, hqs]
  have hws : cfg.isSepWS q = false := by simp [KeywordProcessor.isSepWS, hqw, hqs]
  have ham : anchoredMatch cfg (q :: rest) =
      some (q :: rest.takeWhile (fun d => !cfg.isSep d),
        (rest.dropWhile (fun d => !cfg.isSep d)).dropWhile cfg.isSep) := by
    rw [anchoredMatch_head_group hws, tryGroupAt_unterminated hq hqm hopt hnr hs]
    rfl
  rw [findall_cons_some ham, findall_dropWhile_sep hwf]

/-! ### Properties of the sort stage -/

theorem strLe_total : ∀ a b : Str, strLe a b = true ∨ strLe b a = true := by
  intro a
  induction a with
  | nil => intro b; left; rfl
  | cons x as ih =>
    intro b
    match b with
    | [] => right; rfl
    | y :: bs =>
      simp only [strLe]
      rcases Nat.lt_trichotomy x.toNat y.toNat with h | h | h
      · left; rw [if_pos h]
      · rw [if_neg (by omega), if_neg (by omega), if_neg (by omega), if_neg (by omega)]
        exact ih bs
      · right; rw [if_pos h]

theorem chain'_insertS (x : Str) :
    ∀ (l : List Str), List.Chain' (fun a b => strLe a b = true) l →
      List.Chain' (fun a b => strLe a b = true) (insertS x l) := by
  intro l
  induction l with
  | nil => intro _; simp [insertS]
  | cons y ys ih =>
    intro h
    simp only [insertS]
    by_cases hxy : strLe x y = true
    · rw [if_pos hxy]
      exact List.Chain'.cons hxy h
    · rw [if_neg hxy]
      have hyx : strLe y x = true := (strLe_total x y).resolve_left hxy
      rcases ys with _ | ⟨z, zs⟩
      · simp [insertS, hyx]
      · have hyz : strLe y z = true := (List.chain'_cons.mp h).1
        have ihz := ih (List.chain'_cons.mp h).2
        simp only [insertS] at ihz ⊢
        by_cases hxz : strLe x z = true
        · rw [if_pos hxz] at ihz ⊢
          exact List.Chain'.cons hyx ihz
        · rw [if_neg hxz] at ihz ⊢
          exact List.Chain'.cons hyz ihz

theorem pySort_sorted (l : List Str) :
    List.Chain' (fun a b => strLe a b = true) (pySort l) := by
  induction l with
  | nil => simp [pySort]
  | cons x xs ih => exact chain'_insertS x (pySort xs) ih

theorem pySort_of_sorted :
    ∀ l : List Str, List.Chain' (fun a b => strLe a b = true) l → pySort l = l := by
  intro l
  induction l with
  | nil => intro _; rfl
  | cons x xs ih =>
    intro h
    show insertS x (pySort xs) = x :: xs
    rw [ih h.tail]
    rcases xs with _ | ⟨y, ys⟩
    · rfl
    · have hxy : strLe x y = true := (List.chain'_cons.mp h).1
      simp [insertS, hxy]

theorem pySort_idem (l : List Str) : pySort (pySort l) = pySort l :=
  pySort_of_sorted _ (pySort_sorted l)

theorem sortStage_idem (cfg : KeywordProcessor) (l : List Str) :
    sortStage cfg (sortStage cfg l) = sortStage cfg l := by
  by_cases h : cfg.sort = true <;> simp [sortStage, h, pySort_idem]

theorem insertS_perm (x : Str) (l : List Str) : (insertS x l).Perm (x :: l) := by
  induction l with
  | nil => exact List.Perm.refl _
  | cons y ys ih =>
    simp only [insertS]
    by_cases hxy : strLe x y = true
    · rw [if_pos hxy]
    · rw [if_neg hxy]
      exact (List.Perm.cons y ih).trans (List.Perm.swap x y ys)

theorem pySort_perm (l : List Str) : (pySort l).Perm l := by
  induction l with
  | nil => exact List.Perm.refl _
  | cons x xs ih =>
    exact (insertS_perm x (pySort xs)).trans (List.Perm.cons x ih)

theorem sortStage_perm (cfg : KeywordProcessor) (l : List Str) :
    (sortStage cfg l).Perm l := by
  by_cases h : cfg.sort = true <;> simp [sortStage, h, pySort_perm]

/-! ### Pieces of a joined term list -/

theorem refPieces_props (cfg : KeywordProcessor) :
    ∀ (n : Nat) (s : List Char), s.length ≤ n → ∀ p ∈ refPieces cfg s,
      p ≠ [] ∧ ∀ c ∈ p, c ∈ s ∧ cfg.isSep c = false := by
  intro n
  induction n with
  | zero =>
    intro s hl
    have hs : s = [] := List.eq_nil_of_length_eq_zero (Nat.le_zero.mp hl)
    subst hs
    intro p hp
    simp [refPieces_nil] at hp
  | succ n ih =>
    intro s hl p hp
    match s with
    | [] => simp [refPieces_nil] at hp
    | c :: t =>
      simp only [List.length_cons] at hl
      by_cases hc : cfg.isSep c = true
      · rw [refPieces_cons_sep t hc] at hp
        obtain ⟨hne, hchars⟩ := ih t (Nat.le_of_succ_le_succ hl) p hp
        exact ⟨hne, fun d hd => ⟨by simp [(hchars d hd).1], (hchars d hd).2⟩⟩
      · have hc' : cfg.isSep c = false := by simpa using hc
        rw [refPieces_cons_nonsep t hc'] at hp
        rcases List.mem_cons.mp hp with hp | hp
        · subst hp
          refine ⟨by simp, ?_⟩
          intro d hd
          rcases List.mem_cons.mp hd with hd | hd
          · subst hd
            exact ⟨by simp, hc'⟩
          · have hmem : d ∈ t := (List.takeWhile_sublist _).mem hd
            have hpd := List.mem_takeWhile_imp hd
            exact ⟨by simp [hmem], by simpa using hpd⟩
        · have hsub : (t.dropWhile (fun d => !cfg.isSep d)).Sublist t :=
            List.dropWhile_sublist _
          obtain ⟨hne, hchars⟩ := ih (t.dropWhile (fun d => !cfg.isSep d))
            (Nat.le_trans (dropWhile_length_le _ t) (Nat.le_of_succ_le_succ hl)) p hp
          exact ⟨hne, fun d hd =>
            ⟨by simp [hsub.mem (hchars d hd).1], (hchars d hd).2⟩⟩

theorem joinWith_mem {g : Char} :
    ∀ (ts : List Str) (c : Char), c ∈ joinWith g ts → (∃ t ∈ ts, c ∈ t) ∨ c = g := by
  intro ts
  induction ts with
  | nil => intro c hc; simp [joinWith] at hc
  | cons t ts ih =>
    intro c hc
    rcases ts with _ | ⟨t', ts'⟩
    · exact Or.inl ⟨t, by simp, hc⟩
    · rw [show joinWith g (t :: t' :: ts') = t ++ g :: joinWith g (t' :: ts') from rfl] at hc
      rcases List.mem_append.mp hc with h | h
      · exact Or.inl ⟨t, by simp, h⟩
      · rcases List.mem_cons.mp h with h | h
        · exact Or.inr h
        · rcases ih c h with ⟨u, hu, hcu⟩ | h
          · exact Or.inl ⟨u, by simp [hu], hcu⟩
          · exact Or.inr h

theorem refPieces_append_sep {cfg : KeywordProcessor} {g : Char} (hg : cfg.isSep g = true)
    (c : Char) (t : List Char) (r : List Char) (hc : cfg.isSep c = false)
    (ht : ∀ d ∈ t, cfg.isSep d = false) :
    refPieces cfg ((c :: t) ++ g :: r) = (c :: t) :: refPieces cfg r := by
  rw [List.cons_append, refPieces_cons_nonsep _ hc]
  obtain ⟨htw, hdw⟩ := @takeWhile_append_stop (fun d => !cfg.isSep d) t g
    (fun d hd => by simp [ht d hd]) (by simp [hg]) r
  rw [htw, hdw, refPieces_cons_sep r hg]

theorem refPieces_single {cfg : KeywordProcessor} (c : Char) (t : List Char)
    (hc : cfg.isSep c = false) (ht : ∀ d ∈ t, cfg.isSep d = false) :
    refPieces cfg (c :: t) = [c :: t] := by
  rw [refPieces_cons_nonsep t hc]
  rw [takeWhile_eq_self_of_all (fun d hd => by simp [ht d hd]),
    dropWhile_eq_nil_of_all (fun d hd => by simp [ht d hd]), refPieces_nil]

theorem refPieces_joinWith {cfg : KeywordProcessor} {g : Char} (hg : cfg.isSep g = true) :
    ∀ ts : List Str, (∀ t ∈ ts, t ≠ [] ∧ ∀ c ∈ t, cfg.isSep c = false) →
      refPieces cfg (joinWith g ts) = ts := by
  intro ts
  induction ts with
  | nil => intro _; rfl
  | cons t ts ih =>
    intro h
    obtain ⟨hne, hflat⟩ := h t (by simp)
    rcases ts with _ | ⟨t', ts'⟩
    · show refPieces cfg t = [t]
      match t, hne with
      | c :: t'', _ =>
        exact refPieces_single c t'' (hflat c (by simp))
          (fun d hd => hflat d (by simp [hd]))
    · show refPieces cfg (t ++ g :: joinWith g (t' :: ts')) = t :: t' :: ts'
      match t, hne with
      | c :: t'', _ =>
        rw [refPieces_append_sep hg c t'' _ (hflat c (by simp))
          (fun d hd => hflat d (by simp [hd]))]
        rw [ih (fun u hu => h u (by simp [hu]))]

theorem normStage_id {cfg : KeywordProcessor}
    (h : cfg.normalize = none ∨ cfg.normalize = some (fun t => t)) (l : List Str) :
    normStage cfg l = l := by
  rcases h with h | h <;> simp [normStage, h]

/-- Core of the normalization round trip: with no groups, identity (or no)
normalization, and an input whose whitespace is all separator and which
contains no quote character, splitting the join of the terms gives the
terms back. -/
theorem termsOf_roundtrip {cfg : KeywordProcessor} (hwf : wfB cfg = true)
    (hg : cfg.groups = [])
    (hnorm : cfg.normalize = none ∨ cfg.normalize = some (fun t => t))
    (s : List Char)
    (hws : ∀ c ∈ s, c ∈ wsChars → c ∈ cfg.separators)
    (hq : ∀ c ∈ s, c ∉ cfg.quotes) :
    termsOf cfg (joinCanon cfg (termsOf cfg s)) = termsOf cfg s := by
  obtain ⟨hsep_ne, hqp, -, -⟩ := wf_parts hwf
  have hfind : findall cfg s = refPieces cfg s :=
    findall_eq_refPieces hwf hg s.length s le_rfl hws hq
  have hterms : termsOf cfg s = sortStage cfg (refPieces cfg s) := by
    rw [termsOf, hfind, normStage_id hnorm]
  have hprops : ∀ p ∈ termsOf cfg s, p ≠ [] ∧ ∀ c ∈ p, c ∈ s ∧ cfg.isSep c = false := by
    intro p hp
    rw [hterms] at hp
    exact refPieces_props cfg s.length s le_rfl p ((sortStage_perm cfg _).mem_iff.mp hp)
  have hgsep : cfg.separators.headD ' ' ∈ cfg.separators := by
    rcases hsp : cfg.separators with _ | ⟨c, cs⟩
    · exact absurd hsp hsep_ne
    · simp
  have hgsep' : cfg.isSep (cfg.separators.headD ' ') = true := by
    simp only [KeywordProcessor.isSep, decide_eq_true_eq]
    exact hgsep
  have hjoinchar : ∀ c ∈ joinCanon cfg (termsOf cfg s),
      (c ∈ wsChars → c ∈ cfg.separators) ∧ c ∉ cfg.quotes := by
    intro c hc
    rcases joinWith_mem (termsOf cfg s) c hc with ⟨t, ht, hct⟩ | hcg
    · obtain ⟨hcs, -⟩ := (hprops t ht).2 c hct
      exact ⟨fun hw => hws c hcs hw, hq c hcs⟩
    · subst hcg
      refine ⟨fun _ => hgsep, fun hquote => ?_⟩
      exact (hqp _ hquote).2.1 hgsep
  have hfind2 : findall cfg (joinCanon cfg (termsOf cfg s)) =
      refPieces cfg (joinCanon cfg (termsOf cfg s)) :=
    findall_eq_refPieces hwf hg _ _ le_rfl
      (fun c hc => (hjoinchar c hc).1) (fun c hc => (hjoinchar c hc).2)
  have hrejoin : refPieces cfg (joinCanon cfg (termsOf cfg s)) = termsOf cfg s :=
    refPieces_joinWith hgsep' (termsOf cfg s)
      (fun t ht => ⟨(hprops t ht).1, fun c hc => ((hprops t ht).2 c hc).2⟩)
  rw [termsOf, hfind2, normStage_id hnorm, hrejoin, hterms, sortStage_idem]

/-! ### The bucketing loop -/

theorem bucketList_nil (gs : List (Option Char)) (k : Option Char) :
    bucketList gs k [] = [] := rfl

theorem bucketList_cons (gs : List (Option Char)) (k : Option Char) (t : Str)
    (ts : List Str) :
    bucketList gs k (t :: ts) =
      if routesTo gs t = k then storedOf gs t :: bucketList gs k ts
      else bucketList gs k ts := by
  simp only [bucketList, List.filter_cons]
  by_cases h : routesTo gs t = k
  · rw [if_pos (by simp [h]), if_pos h]
    rfl
  · rw [if_neg (by simp [h]), if_neg h]

theorem bucketsOf_fold (gs : List (Option Char)) :
    ∀ (ts : List Str) (b : Option Char → List Str), (∀ t ∈ ts, t ≠ []) →
      List.foldlM (addTok gs) b ts = .ok (fun k => b k ++ bucketList gs k ts) := by
  intro ts
  induction ts with
  | nil =>
    intro b _
    show Except.ok b = _
    congr 1
    funext k
    simp [bucketList_nil]
  | cons t ts ih =>
    intro b hne
    rw [List.foldlM_cons]
    match t, hne t (by simp) with
    | c :: rest, _ =>
      by_cases hc : some c ∈ gs
      · have hadd : addTok gs b (c :: rest) =
            .ok (fun k => if k = some c then b k ++ [rest] else b k) := by
          simp only [addTok, if_pos hc]
        rw [hadd]
        show List.foldlM (addTok gs) _ ts = _
        rw [ih _ (fun u hu => hne u (by simp [hu]))]
        congr 1
        funext k
        rw [bucketList_cons]
        have hroute : routesTo gs (c :: rest) = some c := by
          simp [routesTo, hc]
        by_cases hk : k = some c
        · subst hk
          rw [if_pos rfl, if_pos hroute]
          simp [storedOf, hc]
        · rw [if_neg hk, if_neg (by rw [hroute]; exact fun h => hk h.symm)]
      · have hadd : addTok gs b (c :: rest) =
            .ok (fun k => if k = none then b k ++ [c :: rest] else b k) := by
          simp only [addTok, if_neg hc]
        rw [hadd]
        show List.foldlM (addTok gs) _ ts = _
        rw [ih _ (fun u hu => hne u (by simp [hu]))]
        congr 1
        funext k
        rw [bucketList_cons]
        have hroute : routesTo gs (c :: rest) = none := by
          simp [routesTo, hc]
        by_cases hk : k = none
        · subst hk
          rw [if_pos rfl, if_pos hroute]
          simp [storedOf, hc]
        · rw [if_neg hk, if_neg (by rw [hroute]; exact fun h => hk h.symm)]

theorem bucketsOf_ok {cfg : KeywordProcessor} {ts : List Str}
    (hne : ∀ t ∈ ts, t ≠ []) :
    bucketsOf cfg ts = .ok (fun k => bucketList cfg.groups k ts) := by
  have h := bucketsOf_fold cfg.groups ts (fun _ => []) hne
  rw [bucketsOf, h]
  rfl

theorem bucketList_marker {gs : List (Option Char)} {m : Char} (hm : some m ∈ gs) :
    ∀ ts : List Str, (∀ t ∈ ts, t ≠ []) →
      bucketList gs (some m) ts =
        (ts.filter (fun t => t.head? = some m)).map (List.drop 1) := by
  intro ts
  induction ts with
  | nil => intro _; rfl
  | cons t ts ih =>
    intro hne
    have hih := ih (fun u hu => hne u (by simp [hu]))
    rw [bucketList_cons, List.filter_cons]
    match t, hne t (by simp) with
    | c :: rest, _ =>
      by_cases hcm : c = m
      · subst hcm
        have hroute : routesTo gs (c :: rest) = some c := by simp [routesTo, hm]
        rw [if_pos hroute, if_pos (by simp), List.map_cons, hih]
        congr 1
        simp [storedOf, hm]
      · have hroute : ¬ (routesTo gs (c :: rest) = some m) := by
          by_cases hcg : some c ∈ gs
          · simp [routesTo, hcg, hcm]
          · simp [routesTo, hcg]
        rw [if_neg hroute, if_neg (by simp [hcm]), hih]

theorem bucketList_filter_marked {gs : List (Option Char)} {m : Char} :
    ∀ ts : List Str,
      bucketList gs (some m) (ts.filter (fun t => (routesTo gs t).isSome)) =
        bucketList gs (some m) ts := by
  intro ts
  induction ts with
  | nil => rfl
  | cons t ts ih =>
    rw [List.filter_cons]
    by_cases hr : (routesTo gs t).isSome = true
    · rw [if_pos (by simp [hr]), bucketList_cons, bucketList_cons, ih]
    · have hnone : routesTo gs t = none := by
        cases h : routesTo gs t
        · rfl
        · rw [h] at hr; simp at hr
      rw [if_neg (by simp [hr]), bucketList_cons, if_neg (by simp [hnone]), ih]

theorem mem_dictKeys_aux (k : Option Char) :
    ∀ (gs : List (Option Char)) (acc : List (Option Char)),
      (k ∈ acc ∨ k ∈ gs) →
      k ∈ gs.foldl (fun ks g => if g ∈ ks then ks else ks ++ [g]) acc := by
  intro gs
  induction gs with
  | nil =>
    intro acc h
    rcases h with h | h
    · exact h
    · simp at h
  | cons g gs ih =>
    intro acc h
    show k ∈ List.foldl _ (if g ∈ acc then acc else acc ++ [g]) gs
    apply ih
    by_cases hg : g ∈ acc
    · rw [if_pos hg]
      rcases h with h | h
      · exact Or.inl h
      · rcases List.mem_cons.mp h with h | h
        · exact Or.inl (h ▸ hg)
        · exact Or.inr h
    · rw [if_neg hg]
      rcases h with h | h
      · exact Or.inl (by simp [h])
      · rcases List.mem_cons.mp h with h | h
        · exact Or.inl (by simp [h])
        · exact Or.inr h

theorem mem_dictKeys {k : Option Char} {gs : List (Option Char)} (h : k ∈ gs) :
    k ∈ dictKeys gs :=
  mem_dictKeys_aux k gs [] (Or.inr h)

theorem mem_mappingKeys_of_group {cfg : KeywordProcessor} {k : Option Char}
    (h : k ∈ cfg.groups) : k ∈ mappingKeys cfg := by
  unfold mappingKeys
  by_cases hn : none ∈ dictKeys cfg.groups
  · rw [if_pos hn]
    exact mem_dictKeys h
  · rw [if_neg hn]
    simp [mem_dictKeys h]

theorem none_mem_mappingKeys (cfg : KeywordProcessor) : none ∈ mappingKeys cfg := by
  unfold mappingKeys
  by_cases hn : none ∈ dictKeys cfg.groups
  · rw [if_pos hn]
    exact hn
  · rw [if_neg hn]
    simp

theorem lookup_keys {f : Option Char → List Str} :
    ∀ (ks : List (Option Char)) (a : Option Char), a ∈ ks →
      (ks.map (fun k => (k, f k))).lookup a = some (f a) := by
  intro ks
  induction ks with
  | nil => intro a ha; simp at ha
  | cons k ks ih =>
    intro a ha
    simp only [List.map_cons, List.lookup]
    by_cases hak : a = k
    · subst hak
      simp
    · have hbeq : (a == k) = false := by simpa using hak
      rw [hbeq]
      rcases List.mem_cons.mp ha with h | h
      · exact absurd h hak
      · exact ih a h

/-! ### Separator-only inputs -/

theorem findall_all_sep {cfg : KeywordProcessor} (hwf : wfB cfg = true) :
    ∀ s : List Char, (∀ c ∈ s, c ∈ cfg.separators) → findall cfg s = [] := by
  intro s
  induction s with
  | nil => intro _; rfl
  | cons c t ih =>
    intro h
    rw [findall_cons_sep hwf (h c (by simp))]
    exact ih (fun d hd => h d (by simp [hd]))

theorem normStage_nil (cfg : KeywordProcessor) : normStage cfg [] = [] := by
  cases h : cfg.normalize <;> simp [normStage, h]

theorem sortStage_nil (cfg : KeywordProcessor) : sortStage cfg [] = [] := by
  by_cases h : cfg.sort = true <;> simp [sortStage, h, pySort]

theorem termsOf_all_sep {cfg : KeywordProcessor} (hwf : wfB cfg = true)
    (s : List Char) (h : ∀ c ∈ s, c ∈ cfg.separators) : termsOf cfg s = [] := by
  rw [termsOf, findall_all_sep hwf s h, normStage_nil, sortStage_nil]

/-! ### Steps of the pattern scanner -/

theorem patScan_cons_top (c : Char) (r : List Char) (d : Nat) :
    patScan (c :: r) d .top =
      (if c = '(' then patScan r (d + 1) .top
       else if c = ')' then
         match d with
         | 0 => false
         | d' + 1 => patScan r d' .top
       else if c = '[' then patScan r d .classStart
       else if c = '\\' then
         match r with
         | [] => false
         | _ :: r' => patScan r' d .top
       else patScan r d .top) := by
  rw [patScan.eq_def]

theorem patScan_cons_cs (c : Char) (r : List Char) (d : Nat) :
    patScan (c :: r) d .classStart =
      (if c = '^' then patScan r d .classFirst
       else if c = ']' then patScan r d .inClass
       else if c = '\\' then
         match r with
         | [] => false
         | _ :: r' => patScan r' d .inClass
       else patScan r d .inClass) := by
  rw [patScan.eq_def]

theorem patScan_cons_cf (c : Char) (r : List Char) (d : Nat) :
    patScan (c :: r) d .classFirst =
      (if c = ']' then patScan r d .inClass
       else if c = '\\' then
         match r with
         | [] => false
         | _ :: r' => patScan r' d .inClass
       else patScan r d .inClass) := by
  rw [patScan.eq_def]

theorem patScan_cons_ic (c : Char) (r : List Char) (d : Nat) :
    patScan (c :: r) d .inClass =
      (if c = ']' then patScan r d .top
       else if c = '\\' then
         match r with
         | [] => false
         | _ :: r' => patScan r' d .inClass
       else patScan r d .inClass) := by
  rw [patScan.eq_def]

theorem patScan_nil_top_zero : patScan [] 0 .top = true := rfl

theorem patScan_nil_top_succ (d : Nat) : patScan [] (d + 1) .top = false := by
  rw [patScan.eq_def]
  rfl

theorem patScan_nil_not_top (d : Nat) (m : ScanMode) (h : m ≠ .top) :
    patScan [] d m = false := by
  rw [patScan.eq_def]
  cases m
  · exact absurd rfl h
  · rfl
  · rfl
  · rfl

theorem patScan_top_open (r : List Char) (d : Nat) :
    patScan ('(' :: r) d .top = patScan r (d + 1) .top := by
  rw [patScan_cons_top]
  rfl

theorem patScan_top_close_succ (r : List Char) (d : Nat) :
    patScan (')' :: r) (d + 1) .top = patScan r d .top := by
  rw [patScan_cons_top]
  rfl

theorem patScan_top_close_zero (r : List Char) :
    patScan (')' :: r) 0 .top = false := by
  rw [patScan_cons_top]
  rfl

theorem patScan_top_class (r : List Char) (d : Nat) :
    patScan ('[' :: r) d .top = patScan r d .classStart := by
  rw [patScan_cons_top]
  rfl

theorem patScan_top_plain {c : Char} (h1 : c ≠ '(') (h2 : c ≠ ')') (h3 : c ≠ '[')
    (h4 : c ≠ '\\') (r : List Char) (d : Nat) :
    patScan (c :: r) d .top = patScan r d .top := by
  rw [patScan_cons_top, if_neg h1, if_neg h2, if_neg h3, if_neg h4]

theorem patScan_cs_caret (r : List Char) (d : Nat) :
    patScan ('^' :: r) d .classStart = patScan r d .classFirst := by
  rw [patScan_cons_cs]
  rfl

theorem patScan_cs_rbr (r : List Char) (d : Nat) :
    patScan (']' :: r) d .classStart = patScan r d .inClass := by
  rw [patScan_cons_cs]
  rfl

theorem patScan_cs_plain {c : Char} (h1 : c ≠ '^') (h2 : c ≠ ']') (h3 : c ≠ '\\')
    (r : List Char) (d : Nat) :
    patScan (c :: r) d .classStart = patScan r d .inClass := by
  rw [patScan_cons_cs, if_neg h1, if_neg h2, if_neg h3]

theorem patScan_cf_rbr (r : List Char) (d : Nat) :
    patScan (']' :: r) d .classFirst = patScan r d .inClass := by
  rw [patScan_cons_cf]
  rfl

theorem patScan_cf_plain {c : Char} (h1 : c ≠ ']') (h2 : c ≠ '\\')
    (r : List Char) (d : Nat) :
    patScan (c :: r) d .classFirst = patScan r d .inClass := by
  rw [patScan_cons_cf, if_neg h1, if_neg h2]

theorem patScan_ic_rbr (r : List Char) (d : Nat) :
    patScan (']' :: r) d .inClass = patScan r d .top := by
  rw [patScan_cons_ic]
  rfl

theorem patScan_ic_plain {c : Char} (h1 : c ≠ ']') (h2 : c ≠ '\\')
    (r : List Char) (d : Nat) :
    patScan (c :: r) d .inClass = patScan r d .inClass := by
  rw [patScan_cons_ic, if_neg h1, if_neg h2]

theorem patScan_ic_run :
    ∀ (l : List Char), (∀ c ∈ l, c ≠ ']' ∧ c ≠ '\\') → ∀ (r : List Char) (d : Nat),
      patScan (l ++ r) d .inClass = patScan r d .inClass := by
  intro l
  induction l with
  | nil => intro _ r d; rfl
  | cons c t ih =>
    intro h r d
    obtain ⟨h1, h2⟩ := h c (by simp)
    rw [List.cons_append, patScan_ic_plain h1 h2]
    exact ih (fun e he => h e (by simp [he])) r d

theorem classLit_ne {c : Char} (h : classLit c = true) :
    c ≠ '\\' ∧ c ≠ ']' ∧ c ≠ '[' ∧ c ≠ '^' ∧ c ≠ '-' := by
  simp [classLit] at h
  exact h

theorem atomLit_ne {c : Char} (h : atomLit c = true) :
    c ≠ '\\' ∧ c ≠ '.' ∧ c ≠ '^' ∧ c ≠ '$' ∧ c ≠ '*' ∧ c ≠ '+' ∧ c ≠ '?' ∧
    c ≠ '{' ∧ c ≠ '}' ∧ c ≠ '[' ∧ c ≠ ']' ∧ c ≠ '|' ∧ c ≠ '(' ∧ c ≠ ')' := by
  simp [atomLit] at h
  exact h

theorem patScan_cs_esc (c : Char) (r : List Char) (d : Nat) :
    patScan ('\\' :: c :: r) d .classStart = patScan r d .inClass := by
  rw [patScan_cons_cs]
  rfl

theorem markersOkB_chars :
    ∀ ms : List Char, markersOkB ms = true → ∀ c ∈ ms, classLit c = true ∨ c = '-' := by
  intro ms
  induction ms with
  | nil => intro _ c hc; simp at hc
  | cons a ms ih =>
    intro h c hc
    match ms with
    | [] =>
      have hc' : c = a := by simpa using hc
      subst hc'
      simpa [markersOkB] using h
    | b :: ms' =>
      simp only [markersOkB, List.dropLast_cons₂, List.all_cons, List.getLast?_cons_cons,
        Bool.and_eq_true] at h
      obtain ⟨⟨ha, hrest⟩, hlast⟩ := h
      rcases List.mem_cons.mp hc with hc' | hc'
      · exact Or.inl (hc' ▸ ha)
      · exact ih (by simp [markersOkB, hrest, hlast]) c hc'

theorem markersOk_chars {ms : List Char} (hm : markersOkB ms = true) :
    ∀ c ∈ ms, c ≠ ']' ∧ c ≠ '\\' ∧ c ≠ '^' := by
  intro c hc
  rcases markersOkB_chars ms hm c hc with h | h
  · obtain ⟨h1, h2, -, h4, -⟩ := classLit_ne h
    exact ⟨h2, h1, h4⟩
  · subst h
    refine ⟨by decide, by decide, by decide⟩

theorem scan_seps_run (seps : List Char) (hs : ∀ c ∈ seps, classLit c = true)
    (r : List Char) (d : Nat) :
    patScan (seps ++ r) d .inClass = patScan r d .inClass :=
  patScan_ic_run seps
    (fun c hc => ⟨(classLit_ne (hs c hc)).2.1, (classLit_ne (hs c hc)).1⟩) r d

theorem scan_lead (seps : List Char) (hs : ∀ c ∈ seps, classLit c = true)
    (rest : List Char) (d : Nat) :
    patScan ('[' :: '\\' :: 's' :: (seps ++ (']' :: '*' :: rest))) d .top =
      patScan rest d .top := by
  rw [patScan_top_class, patScan_cs_esc, scan_seps_run seps hs, patScan_ic_rbr,
    patScan_top_plain (by decide) (by decide) (by decide) (by decide)]

theorem scan_qseg (q : Char) (hcl : classLit q = true) (hat : atomLit q = true)
    (rest : List Char) (d : Nat) :
    patScan (q :: '[' :: '^' :: q :: ']' :: '+' :: q :: '|' :: rest) d .top =
      patScan rest d .top := by
  obtain ⟨ha1, -, -, -, -, -, -, -, -, ha10, ha11, -, ha13, ha14⟩ := atomLit_ne hat
  obtain ⟨hc1, hc2, -, -, -⟩ := classLit_ne hcl
  rw [patScan_top_plain ha13 ha14 ha10 ha1, patScan_top_class, patScan_cs_caret,
    patScan_cf_plain hc2 hc1, patScan_ic_rbr,
    patScan_top_plain (by decide) (by decide) (by decide) (by decide),
    patScan_top_plain ha13 ha14 ha10 ha1,
    patScan_top_plain (by decide) (by decide) (by decide) (by decide)]

theorem scan_qsegs (quotes : List Char)
    (hq : ∀ q ∈ quotes, classLit q = true ∧ atomLit q = true) :
    ∀ (rest : List Char) (d : Nat),
      patScan ((quotes.map (fun q => [q, '[', '^', q, ']', '+', q, '|'])).flatten ++ rest)
        d .top = patScan rest d .top := by
  induction quotes with
  | nil => intro rest d; rfl
  | cons q qs ih =>
    intro rest d
    obtain ⟨hcl, hat⟩ := hq q (by simp)
    simp only [List.map_cons, List.flatten_cons, List.append_assoc, List.cons_append,
      List.nil_append]
    rw [scan_qseg q hcl hat]
    exact ih (fun q' hq' => hq q' (by simp [hq'])) rest d

theorem scan_markers (m0 : Char) (ms' : List Char)
    (hm : markersOkB (m0 :: ms') = true) (rest : List Char) (d : Nat) :
    patScan ('[' :: m0 :: (ms' ++ (']' :: rest))) d .top = patScan rest d .top := by
  obtain ⟨hm1, hm2, hm3⟩ := markersOk_chars hm m0 (by simp)
  rw [patScan_top_class, patScan_cs_plain hm3 hm1 hm2,
    patScan_ic_run ms' (fun c hc =>
      ⟨(markersOk_chars hm c (by simp [hc])).1, (markersOk_chars hm c (by simp [hc])).2.1⟩),
    patScan_ic_rbr]

theorem patScan_ic_qmark (r : List Char) (d : Nat) :
    patScan ('?' :: r) d .inClass = patScan r d .inClass :=
  patScan_ic_plain (by decide) (by decide) r d

theorem patScan_ic_lbr (r : List Char) (d : Nat) :
    patScan ('[' :: r) d .inClass = patScan r d .inClass :=
  patScan_ic_plain (by decide) (by decide) r d

theorem patScan_ic_caret (r : List Char) (d : Nat) :
    patScan ('^' :: r) d .inClass = patScan r d .inClass :=
  patScan_ic_plain (by decide) (by decide) r d

theorem patScan_ic_plus (r : List Char) (d : Nat) :
    patScan ('+' :: r) d .inClass = patScan r d .inClass :=
  patScan_ic_plain (by decide) (by decide) r d

theorem patScan_ic_rpar (r : List Char) (d : Nat) :
    patScan (')' :: r) d .inClass = patScan r d .inClass :=
  patScan_ic_plain (by decide) (by decide) r d

theorem patScan_ic_star (r : List Char) (d : Nat) :
    patScan ('*' :: r) d .inClass = patScan r d .inClass :=
  patScan_ic_plain (by decide) (by decide) r d

theorem patScan_top_plus (r : List Char) (d : Nat) :
    patScan ('+' :: r) d .top = patScan r d .top :=
  patScan_top_plain (by decide) (by decide) (by decide) (by decide) r d

theorem patScan_top_pipe (r : List Char) (d : Nat) :
    patScan ('|' :: r) d .top = patScan r d .top :=
  patScan_top_plain (by decide) (by decide) (by decide) (by decide) r d

theorem patScan_top_star (r : List Char) (d : Nat) :
    patScan ('*' :: r) d .top = patScan r d .top :=
  patScan_top_plain (by decide) (by decide) (by decide) (by decide) r d

theorem patScan_top_qmark (r : List Char) (d : Nat) :
    patScan ('?' :: r) d .top = patScan r d .top :=
  patScan_top_plain (by decide) (by decide) (by decide) (by decide) r d

theorem scan_bare (seps : List Char) (hs : ∀ c ∈ seps, classLit c = true)
    (hne : seps ≠ []) (rest : List Char) (d : Nat) :
    patScan ('[' :: '^' :: (seps ++ (']' :: '+' :: rest))) d .top =
      patScan rest d .top := by
  match seps, hne with
  | s0 :: seps', _ =>
    obtain ⟨hc1, hc2, -, -, -⟩ := classLit_ne (hs s0 (by simp))
    rw [patScan_top_class, patScan_cs_caret, List.cons_append, patScan_cf_plain hc2 hc1,
      scan_seps_run seps' (fun c hc => hs c (by simp [hc])), patScan_ic_rbr,
      patScan_top_plain (by decide) (by decide) (by decide) (by decide)]

theorem scan_trail (seps : List Char) (hs : ∀ c ∈ seps, classLit c = true)
    (hne : seps ≠ []) (rest : List Char) (d : Nat) :
    patScan ('[' :: (seps ++ (']' :: '*' :: rest))) d .top =
      patScan rest d .top := by
  match seps, hne with
  | s0 :: seps', _ =>
    obtain ⟨hc1, hc2, -, hc4, -⟩ := classLit_ne (hs s0 (by simp))
    rw [patScan_top_class, List.cons_append, patScan_cs_plain hc4 hc2 hc1,
      scan_seps_run seps' (fun c hc => hs c (by simp [hc])), patScan_ic_rbr,
      patScan_top_plain (by decide) (by decide) (by decide) (by decide)]

/-- The constructed pattern compiles whenever the separator set is nonempty
and the configured characters are literal.  (The degenerate groups that
contribute no marker character still compile: the `[]?` class swallows the
following characters up to the first `]` exactly as Python parses it.) -/
theorem patternOk_build (seps quotes : List Char) (gs : List (Option Char))
    (hs : ∀ c ∈ seps, classLit c = true) (hne : seps ≠ [])
    (hq : ∀ q ∈ quotes, classLit q = true ∧ atomLit q = true)
    (hm : markersOkB (markerCharsOf gs) = true) :
    patternOk (buildPattern seps quotes gs) = true := by
  rcases gs with _ | ⟨g0, gs'⟩
  · unfold patternOk buildPattern
    simp only [List.cons_append, List.append_assoc, List.nil_append]
    rw [scan_lead _ hs, patScan_top_open, scan_qsegs quotes hq,
      scan_bare seps hs hne, patScan_top_close_succ, scan_trail seps hs hne]
    exact patScan_nil_top_zero
  · rcases hms : markerCharsOf (g0 :: gs') with _ | ⟨m0, ms'⟩
    · have hnone : (none : Option Char) ∈ g0 :: gs' := by
        cases g0 with
        | none => simp
        | some c => simp [markerCharsOf] at hms
      unfold patternOk buildPattern
      rw [hms, if_pos hnone]
      simp only [List.cons_append, List.append_assoc, List.nil_append]
      rw [scan_lead _ hs, patScan_top_open, patScan_top_class, patScan_cs_rbr,
        patScan_ic_qmark]
      rcases quotes with _ | ⟨q1, qs⟩
      · simp only [List.map_nil, List.flatten_nil, List.nil_append]
        rw [patScan_ic_lbr, patScan_ic_caret, scan_seps_run seps hs, patScan_ic_rbr,
          patScan_top_plus, patScan_top_close_succ, scan_trail seps hs hne]
        exact patScan_nil_top_zero
      · obtain ⟨hcl1, hat1⟩ := hq q1 (by simp)
        obtain ⟨hq1cl1, hq1cl2, -, -, -⟩ := classLit_ne hcl1
        obtain ⟨ha1, -, -, -, -, -, -, -, -, ha10, -, -, ha13, ha14⟩ := atomLit_ne hat1
        simp only [List.map_cons, List.flatten_cons, List.cons_append, List.append_assoc,
          List.nil_append]
        rw [patScan_ic_plain hq1cl2 hq1cl1, patScan_ic_lbr, patScan_ic_caret,
          patScan_ic_plain hq1cl2 hq1cl1, patScan_ic_rbr, patScan_top_plus,
          patScan_top_plain ha13 ha14 ha10 ha1, patScan_top_pipe,
          scan_qsegs qs (fun q' hq' => hq q' (by simp [hq'])),
          scan_bare seps hs hne, patScan_top_close_succ, scan_trail seps hs hne]
        exact patScan_nil_top_zero
    · have hm' : markersOkB (m0 :: ms') = true := hms ▸ hm
      unfold patternOk buildPattern
      rw [hms]
      by_cases hnone : (none : Option Char) ∈ g0 :: gs'
      · rw [if_pos hnone]
        simp only [List.cons_append, List.append_assoc, List.nil_append]
        rw [scan_lead _ hs, patScan_top_open, scan_markers m0 ms' hm',
          patScan_top_qmark, scan_qsegs quotes hq, scan_bare seps hs hne,
          patScan_top_close_succ, scan_trail seps hs hne]
        exact patScan_nil_top_zero
      · rw [if_neg hnone]
        simp only [List.cons_append, List.append_assoc, List.nil_append]
        rw [scan_lead _ hs, patScan_top_open, scan_markers m0 ms' hm',
          scan_qsegs quotes hq, scan_bare seps hs hne,
          patScan_top_close_succ, scan_trail seps hs hne]
        exact patScan_nil_top_zero

/-- With an empty separator set the constructed pattern does not compile:
the bare-run class degenerates to `[^]+`, whose first `]` is a literal
class member under Python's rules, so the class swallows the group's
closing parenthesis (or, with nothing left to swallow, the final class is
unterminated) and `re.compile` rejects the pattern. -/
theorem patternOk_empty_seps (quotes : List Char) (gs : List (Option Char))
    (hq : ∀ q ∈ quotes, classLit q = true ∧ atomLit q = true)
    (hm : markersOkB (markerCharsOf gs) = true) :
    patternOk (buildPattern [] quotes gs) = false := by
  have hlead : ∀ (rest : List Char) (d : Nat),
      patScan ('[' :: '\\' :: 's' :: ']' :: '*' :: rest) d .top = patScan rest d .top := by
    intro rest d
    rw [patScan_top_class, patScan_cs_esc, patScan_ic_rbr, patScan_top_star]
  have hbare : ∀ (rest : List Char) (d : Nat),
      patScan ('[' :: '^' :: ']' :: '+' :: ')' :: '[' :: ']' :: '*' :: rest) d .top =
        patScan rest d .top := by
    intro rest d
    rw [patScan_top_class, patScan_cs_caret, patScan_cf_rbr, patScan_ic_plus,
      patScan_ic_rpar, patScan_ic_lbr, patScan_ic_rbr, patScan_top_star]
  rcases gs with _ | ⟨g0, gs'⟩
  · unfold patternOk buildPattern
    simp only [List.cons_append, List.append_assoc, List.nil_append]
    rw [hlead, patScan_top_open, scan_qsegs quotes hq, hbare]
    exact patScan_nil_top_succ 1
  · rcases hms : markerCharsOf (g0 :: gs') with _ | ⟨m0, ms'⟩
    · have hnone : (none : Option Char) ∈ g0 :: gs' := by
        cases g0 with
        | none => simp
        | some c => simp [markerCharsOf] at hms
      unfold patternOk buildPattern
      rw [hms, if_pos hnone]
      simp only [List.cons_append, List.append_assoc, List.nil_append]
      rw [hlead, patScan_top_open, patScan_top_class, patScan_cs_rbr, patScan_ic_qmark]
      rcases quotes with _ | ⟨q1, qs⟩
      · simp only [List.map_nil, List.flatten_nil, List.nil_append]
        rw [patScan_ic_lbr, patScan_ic_caret, patScan_ic_rbr, patScan_top_plus,
          patScan_top_close_succ, patScan_top_class, patScan_cs_rbr, patScan_ic_star]
        exact patScan_nil_not_top 0 .inClass (by simp)
      · obtain ⟨hcl1, hat1⟩ := hq q1 (by simp)
        obtain ⟨hq1cl1, hq1cl2, -, -, -⟩ := classLit_ne hcl1
        obtain ⟨ha1, -, -, -, -, -, -, -, -, ha10, -, -, ha13, ha14⟩ := atomLit_ne hat1
        simp only [List.map_cons, List.flatten_cons, List.cons_append, List.append_assoc,
          List.nil_append]
        rw [patScan_ic_plain hq1cl2 hq1cl1, patScan_ic_lbr, patScan_ic_caret,
          patScan_ic_plain hq1cl2 hq1cl1, patScan_ic_rbr, patScan_top_plus,
          patScan_top_plain ha13 ha14 ha10 ha1, patScan_top_pipe,
          scan_qsegs qs (fun q' hq' => hq q' (by simp [hq'])), hbare]
        exact patScan_nil_top_succ 1
    · have hm' : markersOkB (m0 :: ms') = true := hms ▸ hm
      unfold patternOk buildPattern
      rw [hms]
      by_cases hnone : (none : Option Char) ∈ g0 :: gs'
      · rw [if_pos hnone]
        simp only [List.cons_append, List.append_assoc, List.nil_append]
        rw [hlead, patScan_top_open, scan_markers m0 ms' hm', patScan_top_qmark,
          scan_qsegs quotes hq, hbare]
        exact patScan_nil_top_succ 1
      · rw [if_neg hnone]
        simp only [List.cons_append, List.append_assoc, List.nil_append]
        rw [hlead, patScan_top_open, scan_markers m0 ms' hm',
          scan_qsegs quotes hq, hbare]
        exact patScan_nil_top_succ 1

/-! ### Unfoldings of the split dispatcher -/

theorem splitStr_nogroups {cfg : KeywordProcessor} (hg : cfg.groups = [])
    (s : List Char) : splitStr cfg s = .ok (.flat (termsOf cfg s)) := by
  unfold splitStr
  rw [hg]

theorem splitStr_groups {cfg : KeywordProcessor} {g0 : Option Char}
    {gs' : List (Option Char)} (hg : cfg.groups = g0 :: gs') (s : List Char) :
    splitStr cfg s =
      (match bucketsOf cfg (termsOf cfg s) with
       | .error e => .error e
       | .ok b =>
         match cfg.groupMode with
         | .mapping => .ok (.mapping (mappingFromBuckets cfg b))
         | .pairs => .ok (.pairs (pairsFromBuckets cfg b))
         | .container => .ok (.seqs (seqsFromBuckets cfg b))) := by
  unfold splitStr
  rw [hg]

theorem bucketsOf_no_typeError (gs : List (Option Char)) :
    ∀ (ts : List Str) (b : Option Char → List Str),
      List.foldlM (addTok gs) b ts ≠ .error .typeError := by
  intro ts
  induction ts with
  | nil =>
    intro b h
    exact Except.noConfusion h
  | cons t ts ih =>
    intro b h
    rw [List.foldlM_cons] at h
    match t with
    | [] =>
      have hadd : addTok gs b [] = .error .indexError := rfl
      rw [hadd] at h
      simp only [Bind.bind, Except.bind] at h
      exact SplitError.noConfusion (Except.error.inj h)
    | c :: rest =>
      by_cases hc : some c ∈ gs
      · have : addTok gs b (c :: rest) =
            .ok (fun k => if k = some c then b k ++ [rest] else b k) := by
          simp only [addTok, if_pos hc]
        rw [this] at h
        exact ih _ h
      · have : addTok gs b (c :: rest) =
            .ok (fun k => if k = none then b k ++ [c :: rest] else b k) := by
          simp only [addTok, if_neg hc]
        rw [this] at h
        exact ih _ h

theorem splitStr_no_typeError (cfg : KeywordProcessor) (s : List Char) :
    splitStr cfg s ≠ .error .typeError := by
  rcases hg : cfg.groups with _ | ⟨g0, gs'⟩
  · rw [splitStr_nogroups hg s]
    simp
  · rw [splitStr_groups hg s]
    intro h
    match hb : bucketsOf cfg (termsOf cfg s) with
    | .error e =>
      rw [hb] at h
      have he : e = SplitError.typeError := by
        injection h
      subst he
      exact bucketsOf_no_typeError cfg.groups (termsOf cfg s) (fun _ => []) hb
    | .ok b =>
      rw [hb] at h
      cases hm : cfg.groupMode <;> rw [hm] at h <;> exact absurd h (by simp)

theorem bucketList_none {gs : List (Option Char)} :
    ∀ ts : List Str, (∀ t ∈ ts, t ≠ []) →
      bucketList gs none ts = ts.filter (fun t => routesTo gs t = none) := by
  intro ts
  induction ts with
  | nil => intro _; rfl
  | cons t ts ih =>
    intro hne
    have hih := ih (fun u hu => hne u (by simp [hu]))
    rw [bucketList_cons, List.filter_cons]
    match t, hne t (by simp) with
    | c :: rest, _ =>
      by_cases hr : routesTo gs (c :: rest) = none
      · have hcg : ¬ (some c ∈ gs) := by
          intro hmem
          simp [routesTo, hmem] at hr
        rw [if_pos hr, if_pos (by simp [hr]), hih]
        simp [storedOf, hcg]
      · rw [if_neg hr, if_neg (by simp [hr]), hih]

/-! ### The claims -/

/-- Claim C1, counterexample.  The claim asserts that a token opened by a
configured quote character with no closing occurrence extends to the end
of the input, forming a single token.  In the code the unterminated-quote
alternative of the pattern fails and the scanner falls back to the bare
alternative, so the remainder is still split at separators: on the input
consisting of a double quote followed by `a b`, the default configuration
produces the two tokens `"a` and `b`, not the single token `"a b`. -/
theorem c1_counterexample :
    findall plainCfg ['"', 'a', ' ', 'b'] = [['"', 'a'], ['b']] ∧
      findall plainCfg ['"', 'a', ' ', 'b'] ≠ [['"', 'a', ' ', 'b']] := by
  decide

/-- Claim C1, amended.  For a well-formed configuration whose marker class
is optional (or absent), a quote character opens a span that extends to
the next occurrence of the same quote character, quote characters kept,
provided the interior is nonempty; but when no closing occurrence exists
the quote character starts an ordinary bare token that extends only to the
next separator character (not to the end of the input), and scanning
continues with the rest. -/
theorem c1_amended {cfg : KeywordProcessor} {q : Char} (hwf : wfB cfg = true)
    (hq : q ∈ cfg.quotes) (hopt : cfg.groups = [] ∨ cfg.markerOptional = true) :
    (∀ mid rest : List Char, mid ≠ [] → (∀ d ∈ mid, d ≠ q) →
      findall cfg (q :: (mid ++ q :: rest)) =
        (q :: (mid ++ [q])) :: findall cfg rest) ∧
    (∀ rest : List Char, q ∉ rest →
      findall cfg (q :: rest) =
        (q :: rest.takeWhile (fun d => !cfg.isSep d)) ::
          findall cfg (rest.dropWhile (fun d => !cfg.isSep d))) :=
  ⟨fun mid rest hmid hmidq => findall_quoted hwf hq hopt hmid hmidq,
   fun rest hnr => findall_unterminated hwf hq hopt hnr⟩

/-- Witness for the amended claim C1 at the search configuration: a
terminated quoted span keeps its separators and both quotes. -/
theorem c1_witness :
    findall searchCfg ('"' :: (['a', ' ', 'b'] ++ '"' :: [' ', 'c'])) =
      ('"' :: (['a', ' ', 'b'] ++ ['"'])) :: findall searchCfg [' ', 'c'] :=
  (c1_amended (by decide) (by decide) (Or.inr (by decide))).1
    ['a', ' ', 'b'] [' ', 'c'] (by decide) (by decide)

/-- Claim C2: for separator, quote and marker characters that stand for
themselves in the constructed pattern, building the configuration fails
(with the one build-time error, ConfigurationError) exactly when the
separator set is empty; with a nonempty separator set no error occurs at
build time. -/
theorem c2_build_error (separators quotes : List Char) (gs : List (Option Char))
    (mode : GroupMode) (nrm : Option (Str → Str)) (so : Bool)
    (hs : ∀ c ∈ separators, classLit c = true)
    (hq : ∀ q ∈ quotes, classLit q = true ∧ atomLit q = true)
    (hm : markersOkB (markerCharsOf gs) = true) :
    (∃ e, mkProcessor separators quotes gs mode nrm so = .error e) ↔
      separators = [] := by
  constructor
  · rintro ⟨e, he⟩
    by_contra hne
    simp only [mkProcessor] at he
    rw [if_pos (patternOk_build separators quotes gs hs hne hq hm)] at he
    exact Except.noConfusion he
  · intro h
    subst h
    simp only [mkProcessor]
    rw [if_neg (by simp [patternOk_empty_seps quotes gs hq hm])]
    exact ⟨.configurationError, rfl⟩

/-- Witness for claim C2: with the default quotes and no markers, the
empty separator set is rejected with a ConfigurationError. -/
theorem c2_witness :
    mkProcessor [] ['"'] [] .pairs none false = .error .configurationError := by
  obtain ⟨e, he⟩ := (c2_build_error [] ['"'] [] .pairs none false (by decide)
    (by decide) (by decide)).mpr rfl
  cases e
  exact he

/-- Claim C3: on the literal input of the notebook, the search
configuration (markers None, plus, minus; container-of-sequences mode)
returns one sequence per configured marker in declared order, markers
stripped, quotes kept. -/
theorem c3_container_example :
    splitStr searchCfg ("animals +cat -dog +\"medical treatment\"".toList) =
      .ok (.seqs [["animals".toList],
        ["cat".toList, "\"medical treatment\"".toList],
        ["dog".toList]]) := rfl

/-- Claim C4, counterexample.  The claim asserts that on inputs free of
quote and marker characters, split agrees with the reference procedure
(break on separator runs, drop empty pieces, normalize, sort) for every
configuration.  But the leading class of the pattern also skips
whitespace that is not a configured separator: with the space character
as the only separator, the input `a_\n_b` (underscores for spaces) has
split result `[a, b]` while the reference procedure keeps the newline
piece. -/
theorem c4_counterexample :
    splitStr spaceCfg ['a', ' ', '\n', ' ', 'b'] = .ok (.flat [['a'], ['b']]) ∧
      refTerms spaceCfg ['a', ' ', '\n', ' ', 'b'] = [['a'], ['\n'], ['b']] ∧
      ([['a'], ['b']] : List Str) ≠ [['a'], ['\n'], ['b']] :=
  ⟨rfl, rfl, by decide⟩

/-- Claim C4, amended.  For a well-formed configuration with no markers,
on inputs with no quote characters and whose whitespace characters are
all configured separators, split equals the reference procedure: break on
runs of separator characters, discard empty pieces, then apply the
configured normalization and sort. -/
theorem c4_refinement {cfg : KeywordProcessor} (hwf : wfB cfg = true)
    (hg : cfg.groups = []) (s : List Char)
    (hws : ∀ c ∈ s, c ∈ wsChars → c ∈ cfg.separators)
    (hq : ∀ c ∈ s, c ∉ cfg.quotes) :
    splitStr cfg s = .ok (.flat (refTerms cfg s)) := by
  rw [splitStr_nogroups hg s]
  unfold termsOf refTerms
  rw [findall_eq_refPieces hwf hg s.length s le_rfl hws hq]

/-- Witness for the amended claim C4 at the space-separated configuration. -/
theorem c4_witness :
    splitStr spaceCfg ['a', ' ', 'b'] = .ok (.flat (refTerms spaceCfg ['a', ' ', 'b'])) :=
  c4_refinement (by decide) rfl ['a', ' ', 'b'] (by decide) (by decide)

/-- Claim C5: for every configured marker `m`, the grouping loop succeeds
on nonempty terms, and the bucket keyed by `m` holds exactly the terms
whose first character is `m`, in order, each with that first character
removed. -/
theorem c5_marker_stripping {cfg : KeywordProcessor} {m : Char}
    (hm : some m ∈ cfg.groups) (ts : List Str) (hne : ∀ t ∈ ts, t ≠ []) :
    ∃ b, bucketsOf cfg ts = .ok b ∧
      b (some m) = (ts.filter (fun t => t.head? = some m)).map (List.drop 1) :=
  ⟨fun k => bucketList cfg.groups k ts, bucketsOf_ok hne, bucketList_marker hm ts hne⟩

/-- Witness for claim C5 at the search configuration: the term `+cat` is
stored under `+` as `cat`; `dog` is not stored there. -/
theorem c5_witness :
    ∃ b, bucketsOf searchCfg [['+', 'c', 'a', 't'], ['d', 'o', 'g']] = .ok b ∧
      b (some '+') = ([['+', 'c', 'a', 't'], ['d', 'o', 'g']].filter
        (fun t => t.head? = some '+')).map (List.drop 1) :=
  c5_marker_stripping (by decide) [['+', 'c', 'a', 't'], ['d', 'o', 'g']] (by decide)

/-- Claim C6: on an input made only of separator characters (including
the empty input), split returns the empty result in the configured shape:
the empty flat sequence when no markers are configured, and in mapping
mode a mapping in which every configured marker key is present and maps
to the empty sequence. -/
theorem c6_sep_only_input {cfg : KeywordProcessor} (hwf : wfB cfg = true)
    (s : List Char) (hsep : ∀ c ∈ s, c ∈ cfg.separators) :
    (cfg.groups = [] → splitStr cfg s = .ok (.flat [])) ∧
    (cfg.groupMode = .mapping → cfg.groups ≠ [] →
      ∃ kvs, splitStr cfg s = .ok (.mapping kvs) ∧
        ∀ g ∈ cfg.groups, kvs.lookup g = some []) := by
  have hterms : termsOf cfg s = [] := termsOf_all_sep hwf s hsep
  constructor
  · intro hg
    rw [splitStr_nogroups hg s, hterms]
  · intro hmode hg
    rcases hgs : cfg.groups with _ | ⟨g0, gs'⟩
    · exact absurd hgs hg
    · rw [splitStr_groups hgs s, hterms,
        show bucketsOf cfg ([] : List Str) = .ok (fun _ => ([] : List Str)) from rfl,
        hmode]
      refine ⟨_, rfl, ?_⟩
      intro g hgmem
      rw [← hgs] at hgmem
      unfold mappingFromBuckets
      rw [lookup_keys _ _ (mem_mappingKeys_of_group hgmem)]

/-- Witness for claim C6: the default configuration returns the empty
flat sequence on a separator-only input. -/
theorem c6_witness : splitStr plainCfg [' ', '\t'] = .ok (.flat []) :=
  (c6_sep_only_input (by decide) [' ', '\t'] (by decide)).1 rfl

/-- Claim C7, counterexample.  The claim asserts the join/resplit round
trip for every configuration with no markers, no quoting involved and
identity normalization.  With only the space character as separator and
sorting enabled, the input `a_\n` (underscore for space) splits into the
terms `a` and the lone newline; sorting puts the newline first, the join
is `\n_a`, and resplitting swallows the newline inside the leading
whitespace class, giving `[a]` instead of the original two terms. -/
theorem c7_counterexample :
    termsOf spaceSortCfg
        (joinCanon spaceSortCfg (termsOf spaceSortCfg ['a', ' ', '\n'])) ≠
      termsOf spaceSortCfg ['a', ' ', '\n'] := by
  decide

/-- Claim C7, amended.  For a well-formed configuration with no markers
and identity (or absent) normalization, and an input with no quote
characters whose whitespace characters are all configured separators,
splitting the join (by the canonical first separator) of the split terms
returns exactly the split terms. -/
theorem c7_roundtrip {cfg : KeywordProcessor} (hwf : wfB cfg = true)
    (hg : cfg.groups = [])
    (hnorm : cfg.normalize = none ∨ cfg.normalize = some (fun t => t))
    (s : List Char)
    (hws : ∀ c ∈ s, c ∈ wsChars → c ∈ cfg.separators)
    (hq : ∀ c ∈ s, c ∉ cfg.quotes) :
    splitStr cfg (joinCanon cfg (termsOf cfg s)) = splitStr cfg s := by
  rw [splitStr_nogroups hg (joinCanon cfg (termsOf cfg s)), splitStr_nogroups hg s,
    termsOf_roundtrip hwf hg hnorm s hws hq]

/-- Witness for the amended claim C7 at the sorting space-separated
configuration. -/
theorem c7_witness :
    splitStr spaceSortCfg
        (joinCanon spaceSortCfg (termsOf spaceSortCfg ['b', ' ', 'a'])) =
      splitStr spaceSortCfg ['b', ' ', 'a'] :=
  c7_roundtrip (by decide) rfl (Or.inl rfl) ['b', ' ', 'a'] (by decide) (by decide)

/-- Claim C8: split fails with the TypeError-kind error exactly when its
argument is not a string; in particular a string argument never produces
that error, whatever the tokenization does. -/
theorem c8_type_guard (cfg : KeywordProcessor) (v : PyValue) :
    split cfg v = .error .typeError ↔ ∀ s : Str, v ≠ .pstr s := by
  constructor
  · intro h s hv
    rw [hv] at h
    exact splitStr_no_typeError cfg s h
  · intro h
    match v with
    | .pstr s => exact absurd rfl (h s)
    | .pint n => rfl
    | .pbool b => rfl
    | .pnone => rfl

/-- Claim C9: when the marker list is nonempty but lacks the None
sentinel, terms without a recognized marker are invisible to the pairs
and container-of-sequences modes (filtering them away changes neither
result), while the mapping mode returns them under the key None even
though None was not configured. -/
theorem c9_unconfigured_sentinel {cfg : KeywordProcessor}
    (hg : cfg.groups ≠ []) (hn : (none : Option Char) ∉ cfg.groups)
    (ts : List Str) (hne : ∀ t ∈ ts, t ≠ []) :
    ∃ b b', bucketsOf cfg ts = .ok b ∧
      bucketsOf cfg (ts.filter (fun t => (routesTo cfg.groups t).isSome)) = .ok b' ∧
      pairsFromBuckets cfg b = pairsFromBuckets cfg b' ∧
      seqsFromBuckets cfg b = seqsFromBuckets cfg b' ∧
      (mappingFromBuckets cfg b).lookup none =
        some (ts.filter (fun t => routesTo cfg.groups t = none)) := by
  have hne' : ∀ t ∈ ts.filter (fun t => (routesTo cfg.groups t).isSome), t ≠ [] :=
    fun t ht => hne t (List.mem_of_mem_filter ht)
  have hbeq : ∀ g ∈ cfg.groups,
      bucketList cfg.groups g (ts.filter (fun t => (routesTo cfg.groups t).isSome)) =
        bucketList cfg.groups g ts := by
    intro g hgmem
    match g, hgmem with
    | some m, _ => exact bucketList_filter_marked ts
    | none, hgm => exact absurd hgm hn
  refine ⟨fun k => bucketList cfg.groups k ts,
    fun k => bucketList cfg.groups k
      (ts.filter (fun t => (routesTo cfg.groups t).isSome)),
    bucketsOf_ok hne, bucketsOf_ok hne', ?_, ?_, ?_⟩
  · unfold pairsFromBuckets
    refine congrArg List.flatten (List.map_congr_left ?_)
    intro g hgmem
    exact congrArg (List.map (fun t => (g, t))) (hbeq g hgmem).symm
  · unfold seqsFromBuckets
    refine List.map_congr_left ?_
    intro g hgmem
    exact (hbeq g hgmem).symm
  · unfold mappingFromBuckets
    rw [lookup_keys _ _ (none_mem_mappingKeys cfg)]
    show some (bucketList cfg.groups none ts) = _
    rw [bucketList_none ts hne]

/-- Witness for claim C9 at the strict configuration (only marker `+`,
no None sentinel): the unmarked term `cat` is dropped by the pairs and
container modes and returned by the mapping mode under the key None. -/
theorem c9_witness :
    ∃ b b', bucketsOf strictCfg [['c', 'a', 't'], ['+', 'd']] = .ok b ∧
      bucketsOf strictCfg ([['c', 'a', 't'], ['+', 'd']].filter
        (fun t => (routesTo strictCfg.groups t).isSome)) = .ok b' ∧
      pairsFromBuckets strictCfg b = pairsFromBuckets strictCfg b' ∧
      seqsFromBuckets strictCfg b = seqsFromBuckets strictCfg b' ∧
      (mappingFromBuckets strictCfg b).lookup none =
        some ([['c', 'a', 't'], ['+', 'd']].filter
          (fun t => routesTo strictCfg.groups t = none)) :=
  c9_unconfigured_sentinel (by decide) (by decide)
    [['c', 'a', 't'], ['+', 'd']] (by decide)

/-- Claim C10: with a normalization function and markers configured, the
normalization is applied to the raw tokens (markers and quotes still
attached), and the bucket of a marker `m` is then decided by the first
character of the normalized term: in mapping mode, the value under the
key `m` is the list of normalized (then sorted) terms whose head is `m`,
each with that head removed. -/
theorem c10_normalize_before_bucketing {cfg : KeywordProcessor} {f : Str → Str}
    {m : Char} (hf : cfg.normalize = some f) (hmode : cfg.groupMode = .mapping)
    (hm : some m ∈ cfg.groups) (s : List Char)
    (hne : ∀ t ∈ findall cfg s, f t ≠ []) :
    ∃ kvs, splitStr cfg s = .ok (.mapping kvs) ∧
      kvs.lookup (some m) =
        some (((sortStage cfg ((findall cfg s).map f)).filter
          (fun t => t.head? = some m)).map (List.drop 1)) := by
  have hterms : termsOf cfg s = sortStage cfg ((findall cfg s).map f) := by
    unfold termsOf normStage
    rw [hf]
  have hne' : ∀ t ∈ sortStage cfg ((findall cfg s).map f), t ≠ [] := by
    intro t ht
    have hmem := (sortStage_perm cfg ((findall cfg s).map f)).mem_iff.mp ht
    rcases List.mem_map.mp hmem with ⟨u, hu, hfu⟩
    rw [← hfu]
    exact hne u hu
  rcases hgs : cfg.groups with _ | ⟨g0, gs'⟩
  · rw [hgs] at hm
    exact absurd hm (by simp)
  · rw [splitStr_groups hgs s, hterms, bucketsOf_ok hne', hmode]
    refine ⟨_, rfl, ?_⟩
    unfold mappingFromBuckets
    rw [lookup_keys _ _ (mem_mappingKeys_of_group hm)]
    show some (bucketList cfg.groups (some m)
      (sortStage cfg ((findall cfg s).map f))) = _
    rw [bucketList_marker hm _ hne']

/-- Witness for claim C10: with a normalization that drops the first
character of every token, the raw token `+cat` normalizes to `cat`, whose
head is no longer the marker, so the bucket of `+` comes out empty. -/
theorem c10_witness :
    ∃ kvs, splitStr normCfg ['+', 'c', 'a', 't'] = .ok (.mapping kvs) ∧
      kvs.lookup (some '+') =
        some (((sortStage normCfg ((findall normCfg ['+', 'c', 'a', 't']).map
          (fun t => t.drop 1))).filter (fun t => t.head? = some '+')).map
            (List.drop 1)) :=
  c10_normalize_before_bucketing rfl rfl (by decide) ['+', 'c', 'a', 't'] (by decide)
